import Mathlib

/-!
Verification of the sentence-segmentation, segment-grouping, alignment and
phonetic-redistribution core of the wenyan-book-video processor.

Texts are embedded as `List Char` (`Str`), mirroring Python's character-level
string processing.  Each Python function used by the claims is translated into
an executable Lean definition of the same name (namespaced per source file):

* `BuildSentences.split_chinese_sentences`, `BuildSentences.split_sentences`
  from `processor/build-sentences.py`;
* `SegmentText.create_segments`, `SegmentText.split_chinese_sentences`,
  `SegmentText.map_segments_to_sentence_ids` from `processor/segment-text.py`;
* `Migration.split_transcript_data`, `Migration.merge_transcripts` and the
  old-vs-new matching loop of `migrate_chapter`
  from `processor/migration/migrate_sentences.py`.
-/

/-- Characters of a Python string. -/
abbrev Str := List Char

/-- Python `str.strip()` on the whitespace set: drop trailing then leading
whitespace. -/
def pyStrip (l : Str) : Str :=
  ((l.reverse.dropWhile Char.isWhitespace).reverse).dropWhile Char.isWhitespace

/-- Python `str.rstrip()`. -/
def pyRstrip (l : Str) : Str :=
  (l.reverse.dropWhile Char.isWhitespace).reverse

/-- Worker for `pySplit`: `cur` holds the reversed current token. -/
def pySplitGo (cur : Str) : Str → List Str
  | [] => if cur = [] then [] else [cur.reverse]
  | c :: cs =>
    if c.isWhitespace then
      if cur = [] then pySplitGo [] cs else cur.reverse :: pySplitGo [] cs
    else
      pySplitGo (c :: cur) cs

/-- Python `str.split()` with no argument: split on whitespace runs,
dropping empty pieces. -/
def pySplit (l : Str) : List Str :=
  pySplitGo [] l

/-- Python `" ".join(tokens)`. -/
def joinSp : List Str → Str
  | [] => []
  | [t] => t
  | t :: ts => t ++ ' ' :: joinSp ts

/-- Concatenation of a list of lists (Python `"".join` and friends). -/
def joinL {α : Type} (ls : List (List α)) : List α :=
  ls.flatten

/-- Python `needle in hay` for strings: some tail of `hay` starts with
`needle`. -/
def containsSub (hay needle : Str) : Bool :=
  hay.tails.any (fun t => needle.isPrefixOf t)

/-- The sentence terminators `。！？` recognised by both segmenters. -/
def terminators : List Char := ['。', '！', '？']

/-- Append a flushed sentence to the accumulator only when it is nonempty
(Python `if processed: sentences.append(processed)`). -/
def appendIfNonempty (acc : List Str) (s : Str) : List Str :=
  if s = [] then acc else acc ++ [s]

namespace BuildSentences

/-- State machine of `split_chinese_sentences` in `processor/build-sentences.py`
(lines 58–141).  `ps` is `preserve_spaces`, `prev` is `text[i-1]` (`none` at
`i = 0`), `inside` is `inside_quotes`, `buf` is `current_sentence`, `rest` the
unread input and `acc` the emitted sentences.  The machine consumes one
character per step; the `」` branch looks ahead without consuming. -/
def processBS (ps : Bool) (prev : Option Char) (inside : Bool) (buf : Str)
    (rest : Str) (acc : List Str) : List Str :=
  match rest with
  | [] =>
    appendIfNonempty acc (if ps then buf else pyStrip buf)
  | c :: cs =>
    if c = '『' then
      processBS ps (some c) true (buf ++ [c]) cs acc
    else if c = '』' then
      let buf' := buf ++ [c]
      let flush :=
        match prev with
        | some p =>
          decide (p ∈ terminators) &&
            match cs.head? with
            | some n => decide (n ∉ terminators)
            | none => true
        | none => false
      if flush then
        processBS ps (some c) false []
          cs (appendIfNonempty acc (if ps then buf' else pyStrip buf'))
      else
        processBS ps (some c) false buf' cs acc
    else if c = '」' then
      let buf' := buf ++ [c]
      if (cs.dropWhile Char.isWhitespace).head? = some '曰' then
        processBS ps (some c) inside []
          cs (appendIfNonempty acc (if ps then buf' else pyStrip buf'))
      else
        processBS ps (some c) inside buf' cs acc
    else if decide (c ∈ terminators) && !inside then
      let buf' := buf ++ [c]
      processBS ps (some c) inside []
        cs (appendIfNonempty acc (if ps then buf' else pyStrip buf'))
    else
      processBS ps (some c) inside (buf ++ [c]) cs acc

/-- `split_chinese_sentences(text, preserve_spaces)` from
`processor/build-sentences.py`. -/
def split_chinese_sentences (ps : Bool) (text : Str) : List Str :=
  processBS ps none false [] text []

/-- Python `text.split("。")` (used by `split_sentences`'s fast path). -/
def splitOnStop : Str → List Str
  | [] => [[]]
  | c :: cs =>
    if c = '。' then
      [] :: splitOnStop cs
    else
      match splitOnStop cs with
      | p :: ps => (c :: p) :: ps
      | [] => [[c]]

/-- Fast path loop of `split_sentences`: `endsStop` records
`text.endswith("。")`; the last part is kept even without a terminator. -/
def fastSplitGo (endsStop : Bool) : List Str → List Str
  | [] => []
  | [p] =>
    let p' := pyStrip p
    if p' = [] then []
    else if endsStop then [p' ++ ['。']] else [p']
  | p :: rest =>
    let p' := pyStrip p
    (if p' = [] then [] else [p' ++ ['。']]) ++ fastSplitGo endsStop rest

/-- The backtick character (U+0060), written by code point. -/
def btick : Char := Char.ofNat 96

/-- Backtick-aware tokenizer of `split_sentences`: pairs of
(piece, is_code). -/
def tokenizeTicks : Str → List (Str × Bool)
  | [] => []
  | c :: cs =>
    if hb : c = btick then
      let inner := cs.takeWhile (fun d => d ≠ btick)
      match hm : cs.dropWhile (fun d => d ≠ btick) with
      | [] => [(c :: cs, true)]
      | _ :: rest' => (c :: inner ++ [btick], true) :: tokenizeTicks rest'
    else
      let plain := (c :: cs).takeWhile (fun d => d ≠ btick)
      (plain, false) :: tokenizeTicks ((c :: cs).dropWhile (fun d => d ≠ btick))
termination_by l => l.length
decreasing_by
  · simp only [List.length_cons]
    have h := (cs.dropWhile_sublist (fun d => d ≠ btick)).length_le
    rw [hm] at h
    simp only [List.length_cons] at h
    omega
  · have h := (cs.dropWhile_sublist (fun d => d ≠ btick)).length_le
    simp only [decide_not] at h
    simp only [List.length_cons, List.dropWhile_cons, hb]
    simp only [decide_not]
    simp [hb]
    omega

/-- Inner character loop of the backtick-aware path: split a plain piece on
`。`, closing the pending `current_parts` at each stop. -/
def plainPieceGo (parts : List Str) (buf : Str) (acc : List Str) :
    Str → (List Str × List Str)
  | [] => (if buf = [] then parts else parts ++ [buf], acc)
  | ch :: rest =>
    let buf' := buf ++ [ch]
    if ch = '。' then
      plainPieceGo [] [] (appendIfNonempty acc (pyStrip (joinL (parts ++ [buf'])))) rest
    else
      plainPieceGo parts buf' acc rest

/-- Token loop of the backtick-aware path of `split_sentences`. -/
def tickTokensGo (parts : List Str) (acc : List Str) :
    List (Str × Bool) → List Str
  | [] =>
    let tail := pyStrip (joinL parts)
    if tail = [] then acc else acc ++ [tail]
  | (seg, isCode) :: rest =>
    if isCode then
      let parts' := parts ++ [seg]
      if containsSub seg ['。'] then
        tickTokensGo [] (appendIfNonempty acc (pyStrip (joinL parts'))) rest
      else
        tickTokensGo parts' acc rest
    else
      let r := plainPieceGo parts [] acc seg
      tickTokensGo r.1 r.2 rest

/-- `split_sentences(text)` from `processor/build-sentences.py`
(lines 144–252): fast `。`-splitting when no backtick occurs, otherwise the
backtick-aware path keeping inline code spans atomic. -/
def split_sentences (text : Str) : List Str :=
  if !containsSub text [btick] then
    (fastSplitGo (text.getLast? = some '。') (splitOnStop text)).filter
      (fun s => s ≠ [])
  else
    (tickTokensGo [] [] (tokenizeTicks text)).filter (fun s => s ≠ [])

end BuildSentences

namespace SegmentText

/-- `visible_length(text)` from `processor/segment-text.py`: character count
with all whitespace removed. -/
def visible_length (text : Str) : Nat :=
  (text.filter (fun c => !c.isWhitespace)).length

/-- Does appending the head of `rest` overflow `mx`? (the look-ahead used by
`create_segments` once the running segment reaches `min_chars`). -/
def headOverflow (mx : Nat) (len : Nat) : List Str → Bool
  | [] => false
  | s :: _ => decide (mx < len + visible_length s)

/-- Loop of `create_segments` (`processor/segment-text.py` lines 91–124) over
the sentence-list representation: `cur` is `current_segment`, `len` is
`current_length`.  When the running segment is long enough and appending would
overflow, the branch closes the segment without consuming the sentence, so the
recursion revisits the same list with an empty accumulator. -/
def createGo (mn mx : Nat) : List Str → List Str → Nat → List (List Str)
  | [], cur, _ => if cur = [] then [] else [cur]
  | s :: rest, cur, len =>
    let sl := visible_length s
    if cur = [] then
      createGo mn mx rest [s] sl
    else if mx < len + sl then
      if mn ≤ len then
        cur :: createGo mn mx (s :: rest) [] 0
      else
        (cur ++ [s]) :: createGo mn mx rest [] 0
    else
      let cur' := cur ++ [s]
      let len' := len + sl
      if mn ≤ len' && headOverflow mx len' rest then
        cur' :: createGo mn mx rest [] 0
      else
        createGo mn mx rest cur' len'
termination_by l cur _ => 2 * l.length + (if cur = [] then 0 else 1)
decreasing_by
  all_goals (simp_all <;> omega)

/-- `create_segments(sentences, min_chars, max_chars)` from
`processor/segment-text.py`: each emitted segment is `"".join` of its
accumulated sentences. -/
def create_segments (sentences : List Str) (mn mx : Nat) : List Str :=
  (createGo mn mx sentences [] 0).map joinL

/-- The Segment Builder policy exactly as §4.2 of the spec words it: append
while the visible length stays at or under `mx`; after an append that brings
the segment to at least `mn`, peek at the next sentence and close early if it
would overflow; on overflow close without the sentence when already at least
`mn` (the sentence seeding the next segment), otherwise append anyway and
close the oversized segment. -/
def specCreateGo (mn mx : Nat) : List Str → List Str → Nat → List (List Str)
  | [], cur, _ => if cur = [] then [] else [cur]
  | s :: rest, cur, len =>
    let sl := visible_length s
    if len + sl ≤ mx then
      let cur' := cur ++ [s]
      let len' := len + sl
      if mn ≤ len' && headOverflow mx len' rest then
        cur' :: specCreateGo mn mx rest [] 0
      else
        specCreateGo mn mx rest cur' len'
    else if mn ≤ len && !(cur = []) then
      cur :: specCreateGo mn mx rest [s] sl
    else
      (cur ++ [s]) :: specCreateGo mn mx rest [] 0

/-- The Segment Builder contract of spec §4.2, phrased from the spec text
rather than from the code (for comparison against `create_segments`). -/
def spec_create_segments (sentences : List Str) (mn mx : Nat) : List Str :=
  (specCreateGo mn mx sentences [] 0).map joinL

/-- State machine of `split_chinese_sentences` in `processor/segment-text.py`
(lines 240–310).  Unlike the build-sentences variant it always strips flushed
sentences and it has a newline branch: a run of consecutive `\n` outside
quotes flushes the buffer and seeds the next buffer with the whole run. -/
def processST (prev : Option Char) (inside : Bool) (buf : Str) (rest : Str)
    (acc : List Str) : List Str :=
  match rest with
  | [] =>
    appendIfNonempty acc (pyStrip buf)
  | c :: cs =>
    if c = '『' then
      processST (some c) true (buf ++ [c]) cs acc
    else if c = '』' then
      let buf' := buf ++ [c]
      let flush :=
        match prev with
        | some p =>
          decide (p ∈ terminators) &&
            match cs.head? with
            | some n => decide (n ∉ terminators)
            | none => true
        | none => false
      if flush then
        processST (some c) false [] cs (appendIfNonempty acc (pyStrip buf'))
      else
        processST (some c) false buf' cs acc
    else if c = '」' then
      let buf' := buf ++ [c]
      if (cs.dropWhile Char.isWhitespace).head? = some '曰' then
        processST (some c) inside [] cs (appendIfNonempty acc (pyStrip buf'))
      else
        processST (some c) inside buf' cs acc
    else if c = '\n' && !inside then
      let run := c :: cs.takeWhile (fun d => d = '\n')
      processST (some '\n') inside run (cs.dropWhile (fun d => d = '\n'))
        (appendIfNonempty acc (pyStrip buf))
    else if decide (c ∈ terminators) && !inside then
      processST (some c) inside [] cs (appendIfNonempty acc (pyStrip (buf ++ [c])))
    else
      processST (some c) inside (buf ++ [c]) cs acc
termination_by rest.length
decreasing_by
  all_goals simp only [List.length_cons]
  · omega
  · omega
  · omega
  · omega
  · omega
  · have h := (cs.dropWhile_sublist (fun d => d = '\n')).length_le
    omega
  · omega
  · omega

/-- `split_chinese_sentences(text)` from `processor/segment-text.py`,
including the final `[s for s in sentences if s]` filter. -/
def split_chinese_sentences (text : Str) : List Str :=
  (processST none false [] text []).filter (fun s => s ≠ [])

/-- `normalize_for_comparison(text)`: strip backticks, collapse whitespace
runs to a single space, strip the ends. -/
def collapseWS : Str → Str
  | [] => []
  | [c] => if c.isWhitespace then [' '] else [c]
  | c :: d :: cs =>
    if c.isWhitespace then
      if d.isWhitespace then collapseWS (d :: cs)
      else ' ' :: collapseWS (d :: cs)
    else c :: collapseWS (d :: cs)

/-- `normalize_for_comparison(text)` from `processor/segment-text.py`. -/
def normalize_for_comparison (text : Str) : Str :=
  pyStrip (collapseWS (text.filter (fun c => c ≠ BuildSentences.btick)))

/-- One canonical sentence record as read from `c{n}.sentences.json`:
`id` and `blockId` model `entry.get("id")` / `entry.get("blockId")`
(with `""`/`none` for missing values), `source` the sentence text. -/
structure SentenceEntry where
  id : String
  blockId : Option String
  source : Str
deriving DecidableEq

/-- A raw narration segment (`RawSegment` dataclass). -/
structure RawSegment where
  id : String
  segment_index : Nat
  text : Str
  is_code_block : Bool
  block_id : Option String
deriving DecidableEq

/-- `ChapterSegments` dataclass. -/
structure ChapterSegments where
  chapter_id : String
  chapter_num : Nat
  segments : List RawSegment
deriving DecidableEq

/-- `SentenceSegmentRecord` dataclass. -/
structure SentenceSegmentRecord where
  id : String
  chapter_id : String
  chapter_num : Nat
  segment_index : Nat
  sentence_ids : List String
  is_code_block : Bool
deriving DecidableEq

/-- Python truthiness of an optional string. -/
def optTruthy : Option String → Bool
  | some s => s ≠ ""
  | none => false

/-- The default entry used to totalize guarded list indexing. -/
def defaultEntry : SentenceEntry := ⟨"", none, []⟩

/-- Per-unit step of `map_segments_to_sentence_ids` (lines 408–446): given the
canonical `sentences` and the cursor `idx`, attribute IDs for one observed
unit `cn` and return them with the advanced cursor.  The span-multiple branch
requires both normalized texts nonempty, the canonical sentence contained in
the unit, a next sentence with nonempty normalization, and the space-free
concatenation contained in the space-free unit. -/
def attributeCn (sentences : List SentenceEntry) (cn : Str) (idx : Nat) :
    List String × Nat :=
  let entry := sentences.getD idx defaultEntry
  let canonical_normalized := normalize_for_comparison entry.source
  let cn_normalized := normalize_for_comparison cn
  let spans_multiple :=
    canonical_normalized ≠ [] && cn_normalized ≠ [] &&
      containsSub cn_normalized canonical_normalized &&
      (decide (idx + 1 < sentences.length) &&
        let next_normalized :=
          normalize_for_comparison (sentences.getD (idx + 1) defaultEntry).source
        next_normalized ≠ [] &&
          containsSub (cn_normalized.filter (fun c => c ≠ ' '))
            ((canonical_normalized ++ ' ' :: next_normalized).filter
              (fun c => c ≠ ' ')))
  if spans_multiple then
    let ids1 := if entry.id ≠ "" then [entry.id] else []
    let idx1 := idx + 1
    if idx1 < sentences.length then
      let nextEntry := sentences.getD idx1 defaultEntry
      let ids2 := if nextEntry.id ≠ "" then ids1 ++ [nextEntry.id] else ids1
      (ids2, idx1 + 1)
    else
      (ids1, idx1)
  else
    (if entry.id ≠ "" then [entry.id] else [], idx + 1)

/-- Inner loop of `map_segments_to_sentence_ids` over the split observed units
of one segment, with the block-id resynchronisation and the break conditions
(`break` is modelled by returning the pair unchanged). -/
def mapCnUnits (sentences : List SentenceEntry) (segBlockId : Option String) :
    List Str → Nat → List String → List String × Nat
  | [], idx, ids => (ids, idx)
  | cn :: rest, idx, ids =>
    if sentences.length ≤ idx then
      (ids, idx)
    else
      let entry := sentences.getD idx defaultEntry
      let blockMismatch :=
        optTruthy segBlockId && optTruthy entry.blockId &&
          entry.blockId ≠ segBlockId
      if blockMismatch then
        if ids ≠ [] then
          (ids, idx)
        else
          match (sentences.drop idx).findIdx?
              (fun e => e.blockId = segBlockId) with
          | none => (ids, idx)
          | some k =>
            let r := attributeCn sentences cn (idx + k)
            mapCnUnits sentences segBlockId rest r.2 (ids ++ r.1)
      else
        let r := attributeCn sentences cn idx
        mapCnUnits sentences segBlockId rest r.2 (ids ++ r.1)

/-- Renumbering pass at the end of `map_segments_to_sentence_ids`: surviving
records get contiguous 1-based indices and ids `{chapterNum}-{index}`. -/
def renumberRecords (chapterNum : Nat) (records : List SentenceSegmentRecord) :
    List SentenceSegmentRecord :=
  records.enum.map (fun p =>
    { p.2 with segment_index := p.1 + 1,
               id := toString chapterNum ++ "-" ++ toString (p.1 + 1) })

/-- Per-segment loop of `map_segments_to_sentence_ids`: split each segment's
stripped text into observed units, attribute canonical IDs, and keep only
segments with at least one ID. -/
def mapSegmentsGo (chapter_segments : ChapterSegments)
    (chapter_sentences : List SentenceEntry) :
    List RawSegment → Nat → List SentenceSegmentRecord
  | [], _ => []
  | segment :: restSegs, sentIndex =>
    let segment_text := pyStrip segment.text
    let cn0 := split_chinese_sentences segment_text
    let cn_sentences :=
      if cn0 = [] && segment_text ≠ [] then [segment_text] else cn0
    let r := mapCnUnits chapter_sentences segment.block_id
      cn_sentences sentIndex []
    if r.1 ≠ [] then
      { id := segment.id,
        chapter_id := chapter_segments.chapter_id,
        chapter_num := chapter_segments.chapter_num,
        segment_index := segment.segment_index,
        sentence_ids := r.1,
        is_code_block := segment.is_code_block } ::
        mapSegmentsGo chapter_segments chapter_sentences restSegs r.2
    else
      mapSegmentsGo chapter_segments chapter_sentences restSegs r.2

/-- `map_segments_to_sentence_ids(chapter_segments, chapter_sentences)` from
`processor/segment-text.py` (lines 340–484): each segment's stripped text is
split into observed units, units are attributed canonical sentence IDs, and
segments with no IDs are dropped before renumbering. -/
def map_segments_to_sentence_ids (chapter_segments : ChapterSegments)
    (chapter_sentences : List SentenceEntry) : List SentenceSegmentRecord :=
  if chapter_sentences = [] then []
  else
    renumberRecords chapter_segments.chapter_num
      (mapSegmentsGo chapter_segments chapter_sentences
        chapter_segments.segments 0)

end SegmentText

namespace Migration

/-- `normalize_text(text)` from `processor/migration/migrate_sentences.py`:
`"".join(text.split())` — remove all whitespace. -/
def normalize_text (text : Str) : Str :=
  joinL (pySplit text)

/-- `count_han_chars(text)`: count of codepoints in U+4E00–U+9FFF. -/
def count_han_chars (text : Str) : Nat :=
  (text.filter (fun c => 0x4e00 ≤ c.toNat && c.toNat ≤ 0x9fff)).length

/-- The fixed punctuation token set of `split_transcript_data`. -/
def punctuation : List Str :=
  [['.'], [','], ['!'], ['?'], ['。'], ['，'], ['！'], ['？']]

/-- Inner `while syllables_grabbed < count` loop: consume tokens until `count`
syllables are grabbed (punctuation tokens are attached without counting) or
the stream ends.  Returns the grabbed tokens and the remaining stream. -/
def grabSyllables : Nat → List Str → List Str × List Str
  | 0, ts => ([], ts)
  | _ + 1, [] => ([], [])
  | n + 1, t :: ts =>
    if t ∈ punctuation then
      let r := grabSyllables (n + 1) ts
      (t :: r.1, r.2)
    else
      let r := grabSyllables n ts
      (t :: r.1, r.2)

/-- Trailing-punctuation loop: attach immediately following punctuation
tokens to the current segment. -/
def grabTrailing : List Str → List Str × List Str
  | [] => ([], [])
  | t :: ts =>
    if t ∈ punctuation then
      let r := grabTrailing ts
      (t :: r.1, r.2)
    else
      ([], t :: ts)

/-- One token-list per target count, plus the unconsumed remainder of the
stream (the per-count body of `split_transcript_data`'s main loop). -/
def distributeTokens : List Nat → List Str → List (List Str) × List Str
  | [], ts => ([], ts)
  | c :: cs, ts =>
    let g1 := grabSyllables c ts
    let g2 := grabTrailing g1.2
    let r := distributeTokens cs g2.2
    ((g1.1 ++ g2.1) :: r.1, r.2)

/-- Python `results[-1] += " " + rest` on the joined-string representation. -/
def spliceLeftover (restStr : Str) : List Str → List Str
  | [] => []
  | [r] => [r ++ ' ' :: restStr]
  | r :: rs => r :: spliceLeftover restStr rs

/-- Python `s.rstrip().endswith(".")`. -/
def endsWithDot (r : Str) : Bool :=
  (pyRstrip r).getLast? = some '.'

/-- Boundary-terminator pass (lines 106–111): for every result except the
last, when the *next* new segment starts with a newline and the result is
nonempty without a trailing `.`, append `" ."`.  `segs` is the list of new
segments from index `i + 1` on. -/
def fixBoundaries : List Str → List Str → List Str
  | [], _ => []
  | [r], _ => [r]
  | r :: rs, segs =>
    let r' :=
      match segs with
      | s :: _ =>
        if s.head? = some '\n' && r ≠ [] && !endsWithDot r then
          pyRstrip r ++ [' ', '.']
        else r
      | [] => r
    r' :: fixBoundaries rs (segs.drop 1)

/-- Count of boundaries fixed by `fixBoundaries` (for the conservation
statement). -/
def fixCount : List Str → List Str → Nat
  | [], _ => 0
  | [_], _ => 0
  | r :: rs, segs =>
    (match segs with
     | s :: _ =>
       if s.head? = some '\n' && r ≠ [] && !endsWithDot r then 1 else 0
     | [] => 0) + fixCount rs (segs.drop 1)

/-- One `{"ipa": ..., "tupa": ...}` record. -/
structure IpaTupa where
  ipa : Str
  tupa : Str
deriving DecidableEq

/-- The per-stream body of `split_transcript_data`'s main loop (run once for
IPA and once for Tupa with identical code): tokenize on whitespace, grab
per-count token groups with trailing punctuation, join each group with
spaces, and append the unconsumed remainder to the last result. -/
def distributedResults (orig : Str) (counts : List Nat) : List Str :=
  let d := distributeTokens counts (pySplit orig)
  let r0 := d.1.map joinSp
  if d.2 ≠ [] && r0 ≠ [] then spliceLeftover (joinSp d.2) r0 else r0

/-- `split_transcript_data(original_ipa, original_tupa, new_segments)` from
`processor/migration/migrate_sentences.py` (lines 36–116): distribute the
whitespace-split token streams over the new segments by Han-character count,
attach punctuation to the current segment, append leftovers to the last
result, and insert a boundary `" ."` before newline-initial segments. -/
def split_transcript_data (original_ipa original_tupa : Str)
    (new_segments : List Str) : List IpaTupa :=
  let segment_char_counts := new_segments.map count_han_chars
  let total_chars := segment_char_counts.sum
  if total_chars = 0 then
    new_segments.map (fun _ => ⟨[], []⟩)
  else
    let ipa_results := fixBoundaries
      (distributedResults original_ipa segment_char_counts)
      (new_segments.drop 1)
    let tupa_results := fixBoundaries
      (distributedResults original_tupa segment_char_counts)
      (new_segments.drop 1)
    List.zipWith (fun i t => ⟨i, t⟩) ipa_results tupa_results

/-- One `choices[]` entry of a transcript record. -/
structure Choice where
  char : Str
  indexInSource : Nat
  indexAmongChinese : Nat
  sameCharIndex : Nat
  ipa : Str
  tupa : Str
deriving DecidableEq

/-- A transcript annotation record (`choices = []` models an absent field). -/
structure TranscriptData where
  source : Str
  ipa : Str
  tupa : Str
  choices : List Choice
deriving DecidableEq

/-- `merge_transcripts(entries)`: concatenate sources, space-join IPA/Tupa,
and shift each entry's choice offsets by the accumulated source length. -/
def merge_transcripts (entries : List TranscriptData) : TranscriptData :=
  match entries with
  | [] => ⟨[], [], [], []⟩
  | [first] => first
  | _ =>
    let merged_ipa := pyStrip (joinSp (entries.map (·.ipa)))
    let merged_tupa := pyStrip (joinSp (entries.map (·.tupa)))
    let rec shift (offset : Nat) : List TranscriptData → List Choice
      | [] => []
      | e :: es =>
        e.choices.map (fun c => { c with indexInSource := c.indexInSource + offset })
          ++ shift (offset + e.source.length) es
    let full_source := joinL (entries.map (·.source))
    ⟨full_source, merged_ipa, merged_tupa, shift 0 entries⟩

/-- An old sentence with its annotation data, as assembled in
`migrate_chapter` from the old transcripts map. -/
structure OldSentence where
  id : String
  source : Str
  data : TranscriptData
deriving DecidableEq

/-- A freshly regenerated sentence (`{id, source}` of the new list). -/
structure NewSentence where
  id : String
  source : Str
deriving DecidableEq

/-- Merge-case accumulation of `migrate_chapter` (lines 267–287): starting
from the first old sentence already accumulated as `acc`, keep appending old
sentences; on an exact match return how many extra sentences were consumed,
fail once the accumulation exceeds the target. -/
def accumulateOlds (target : Str) (acc : Str) : List OldSentence → Option Nat
  | [] => none
  | o :: rest =>
    let acc' := acc ++ normalize_text o.source
    if acc' = target then some 1
    else if target.length < acc'.length then none
    else
      match accumulateOlds target acc' rest with
      | some k => some (k + 1)
      | none => none

/-- Split-case accumulation (lines 298–318), symmetric over new sentences. -/
def accumulateNews (target : Str) (acc : Str) : List NewSentence → Option Nat
  | [] => none
  | n :: rest =>
    let acc' := acc ++ normalize_text n.source
    if acc' = target then some 1
    else if target.length < acc'.length then none
    else
      match accumulateNews target acc' rest with
      | some k => some (k + 1)
      | none => none

/-- Placeholder record used by the fallback branches of `migrate_chapter`. -/
def placeholderData (source : Str) : TranscriptData :=
  ⟨source, [], [], []⟩

/-- The old-vs-new matching loop of `migrate_chapter`
(`processor/migration/migrate_sentences.py` lines 240–347).  Returns the pair
of `new_to_data_map` and `new_to_old_ids_map`, as insertion-ordered
association lists.  The four cases are: old sentences exhausted (placeholder),
exact normalized match, merge (many old → one new), split (one old → many
new), and the final fallback (placeholder, old cursor unchanged). -/
def migrate_chapter_loop (olds : List OldSentence) (news : List NewSentence) :
    List (String × TranscriptData) × List (String × List String) :=
  match news with
  | [] => ([], [])
  | new_s :: newsRest =>
    let new_source_norm := normalize_text new_s.source
    match olds with
    | [] =>
      let r := migrate_chapter_loop [] newsRest
      ((new_s.id, placeholderData new_s.source) :: r.1, r.2)
    | old_s :: oldsRest =>
      let old_source_norm := normalize_text old_s.source
      if new_source_norm = old_source_norm then
        let r := migrate_chapter_loop oldsRest newsRest
        ((new_s.id, old_s.data) :: r.1, (new_s.id, [old_s.id]) :: r.2)
      else
        let mergeRes :=
          if old_source_norm.isPrefixOf new_source_norm then
            accumulateOlds new_source_norm old_source_norm oldsRest
          else none
        match mergeRes with
        | some k =>
          let accumulated_old := old_s :: oldsRest.take k
          let merged0 := merge_transcripts (accumulated_old.map (·.data))
          let merged := { merged0 with source := new_s.source }
          let r := migrate_chapter_loop (oldsRest.drop k) newsRest
          ((new_s.id, merged) :: r.1,
            (new_s.id, accumulated_old.map (·.id)) :: r.2)
        | none =>
          let splitRes :=
            if new_source_norm.isPrefixOf old_source_norm then
              accumulateNews old_source_norm new_source_norm newsRest
            else none
          match splitRes with
          | some k =>
            let accumulated_new := new_s :: newsRest.take k
            let split_results := split_transcript_data old_s.data.ipa
              old_s.data.tupa (accumulated_new.map (·.source))
            let entries := List.zipWith
              (fun (ns : NewSentence) (sd : IpaTupa) =>
                ((ns.id, (⟨ns.source, sd.ipa, sd.tupa, []⟩ : TranscriptData)),
                  (ns.id, [old_s.id])))
              accumulated_new split_results
            let r := migrate_chapter_loop oldsRest (newsRest.drop k)
            (entries.map (·.1) ++ r.1, entries.map (·.2) ++ r.2)
          | none =>
            let r := migrate_chapter_loop (old_s :: oldsRest) newsRest
            ((new_s.id, placeholderData new_s.source) :: r.1, r.2)
termination_by news.length
decreasing_by
  all_goals simp [List.length_drop] <;> omega

end Migration

/-- Number of whitespace-separated tokens of a joined transcript string. -/
def tokenCount (s : Str) : Nat :=
  (pySplit s).length

/-- A text containing none of the three quotation delimiters handled by the
segmenters. -/
def noQuoteDelims (t : Str) : Prop :=
  ∀ c ∈ t, c ≠ '『' ∧ c ≠ '』' ∧ c ≠ '」'

/-- A wellformed token: nonempty and whitespace-free (the shape of every
token produced by `pySplit`). -/
def wfToken (t : Str) : Prop :=
  t ≠ [] ∧ ∀ c ∈ t, ¬c.isWhitespace

/-- A string free of sentence terminators. -/
def termFree (s : Str) : Prop :=
  ∀ c ∈ s, c ∉ terminators

/-- A string whose last character is a sentence terminator. -/
def endsTerm (s : Str) : Prop :=
  ∃ c, s.getLast? = some c ∧ c ∈ terminators

/-- Shape of every sentence emitted by the stripping segmenter on
quote-free input: nonempty, fixed by `pyStrip`, free of quote delimiters,
with terminators only in final position. -/
def sentOK (s : Str) : Prop :=
  s ≠ [] ∧ pyStrip s = s ∧ noQuoteDelims s ∧ termFree s.dropLast

/-!  Helper lemmas about stripping and whitespace splitting. -/

theorem dropWhile_eq_self_of_head {p : Char → Bool} {l : Str}
    (h : ∀ c, l.head? = some c → ¬p c) : l.dropWhile p = l := by
  cases l with
  | nil => rfl
  | cons c cs =>
    exact List.dropWhile_cons_of_neg (h c rfl)

theorem filter_dropWhile_ws (l : Str) :
    (l.dropWhile Char.isWhitespace).filter (fun c => !c.isWhitespace) =
      l.filter (fun c => !c.isWhitespace) := by
  induction l with
  | nil => rfl
  | cons c cs ih =>
    by_cases h : c.isWhitespace
    · rw [List.dropWhile_cons_of_pos h, ih, List.filter_cons]
      simp [h]
    · rw [List.dropWhile_cons_of_neg h]

theorem filter_pyStrip (l : Str) :
    (pyStrip l).filter (fun c => !c.isWhitespace) =
      l.filter (fun c => !c.isWhitespace) := by
  unfold pyStrip
  rw [filter_dropWhile_ws, List.filter_reverse, filter_dropWhile_ws,
    List.filter_reverse, List.reverse_reverse]

theorem pyStrip_head_not_ws {l : Str} {c : Char} (h : (pyStrip l).head? = some c) :
    ¬c.isWhitespace := by
  have hx := List.head?_dropWhile_not Char.isWhitespace
    ((l.reverse.dropWhile Char.isWhitespace).reverse)
  unfold pyStrip at h
  rw [h] at hx
  simp only at hx
  simp [hx]

theorem pyStrip_getLast_not_ws {l : Str} {c : Char}
    (h : (pyStrip l).getLast? = some c) : ¬c.isWhitespace := by
  have hx := List.head?_dropWhile_not Char.isWhitespace l.reverse
  obtain ⟨t, ht⟩ := List.dropWhile_suffix (p := Char.isWhitespace)
    (l := (l.reverse.dropWhile Char.isWhitespace).reverse)
  unfold pyStrip at h
  have hY : ((l.reverse.dropWhile Char.isWhitespace).reverse).getLast? = some c := by
    rw [← ht, List.getLast?_append, h]
    rfl
  rw [List.getLast?_reverse] at hY
  rw [hY] at hx
  simp only at hx
  simp [hx]

theorem pyStrip_eq_self {l : Str}
    (h1 : ∀ c, l.head? = some c → ¬c.isWhitespace)
    (h2 : ∀ c, l.getLast? = some c → ¬c.isWhitespace) : pyStrip l = l := by
  unfold pyStrip
  rw [dropWhile_eq_self_of_head (l := l.reverse)
      (fun c hc => h2 c (by rw [List.head?_reverse] at hc; exact hc)),
    List.reverse_reverse, dropWhile_eq_self_of_head h1]

theorem pyStrip_idem (l : Str) : pyStrip (pyStrip l) = pyStrip l :=
  pyStrip_eq_self (fun _ hc => pyStrip_head_not_ws hc)
    (fun _ hc => pyStrip_getLast_not_ws hc)

theorem pyStrip_nonempty_of_mem_not_ws {l : Str} {c : Char} (hc : c ∈ l)
    (hws : ¬c.isWhitespace) : pyStrip l ≠ [] := by
  intro h
  have hf := filter_pyStrip l
  rw [h] at hf
  have : c ∈ l.filter (fun c => !c.isWhitespace) := by
    rw [List.mem_filter]
    exact ⟨hc, by simp [hws]⟩
  rw [← hf] at this
  simp at this

theorem pySplitGo_ws_mid (xs : Str) : ∀ (cur ys : Str),
    pySplitGo cur (xs ++ ' ' :: ys) = pySplitGo cur xs ++ pySplitGo [] ys := by
  induction xs with
  | nil =>
    intro cur ys
    show pySplitGo cur (' ' :: ys) = pySplitGo cur [] ++ pySplitGo [] ys
    simp only [pySplitGo]
    by_cases hcur : cur = [] <;> simp [hcur]
  | cons c cs ih =>
    intro cur ys
    show pySplitGo cur (c :: (cs ++ ' ' :: ys)) = pySplitGo cur (c :: cs) ++ _
    simp only [pySplitGo]
    by_cases hc : c.isWhitespace
    · by_cases hcur : cur = [] <;> simp [hc, hcur, ih]
    · simp [hc, ih]

theorem pySplitGo_all_ws {w : Str} (h : ∀ c ∈ w, c.isWhitespace) :
    ∀ cur : Str, pySplitGo cur w = if cur = [] then [] else [cur.reverse] := by
  induction w with
  | nil => intro cur; rfl
  | cons c cs ih =>
    intro cur
    have hc : c.isWhitespace := h c (by simp)
    have ihcs := ih (fun d hd => h d (by simp [hd]))
    simp only [pySplitGo, hc, if_true]
    by_cases hcur : cur = [] <;> simp [hcur, ihcs]

theorem pySplitGo_trailing_ws (xs : Str) {w : Str}
    (h : ∀ c ∈ w, c.isWhitespace) :
    ∀ cur : Str, pySplitGo cur (xs ++ w) = pySplitGo cur xs := by
  induction xs with
  | nil =>
    intro cur
    show pySplitGo cur w = pySplitGo cur []
    rw [pySplitGo_all_ws h]
    rfl
  | cons c cs ih =>
    intro cur
    show pySplitGo cur (c :: (cs ++ w)) = pySplitGo cur (c :: cs)
    simp only [pySplitGo]
    by_cases hc : c.isWhitespace
    · by_cases hcur : cur = [] <;> simp [hc, hcur, ih]
    · simp [hc, ih]

theorem pySplitGo_token {t : Str} (h : ∀ c ∈ t, ¬c.isWhitespace) :
    ∀ cur : Str,
      pySplitGo cur t =
        if cur.reverse ++ t = [] then [] else [cur.reverse ++ t] := by
  induction t with
  | nil => intro cur; by_cases hcur : cur = [] <;> simp [pySplitGo, hcur]
  | cons c cs ih =>
    intro cur
    have hc : ¬c.isWhitespace := h c (by simp)
    have ihcs := ih (fun d hd => h d (by simp [hd])) (c :: cur)
    simp only [pySplitGo, hc, if_false]
    rw [ihcs]
    simp

theorem pySplit_joinSp : ∀ {ts : List Str}, (∀ t ∈ ts, wfToken t) →
    pySplit (joinSp ts) = ts := by
  intro ts
  induction ts with
  | nil => intro _; rfl
  | cons t rest ih =>
    intro h
    obtain ⟨hne, hnw⟩ := h t (by simp)
    cases rest with
    | nil =>
      show pySplit (joinSp [t]) = [t]
      unfold pySplit joinSp
      rw [pySplitGo_token hnw]
      simp [hne]
    | cons t2 ts2 =>
      show pySplit (t ++ ' ' :: joinSp (t2 :: ts2)) = t :: t2 :: ts2
      unfold pySplit
      rw [pySplitGo_ws_mid, pySplitGo_token hnw]
      simp only [List.reverse_nil, List.nil_append, hne, if_neg hne]
      have : pySplitGo [] (joinSp (t2 :: ts2)) = t2 :: ts2 :=
        ih (fun u hu => h u (by simp [hu]))
      rw [this]
      simp

theorem pySplitGo_mem_wf : ∀ (l : Str) (cur : Str),
    (∀ c ∈ cur, ¬c.isWhitespace) → ∀ t ∈ pySplitGo cur l, wfToken t := by
  intro l
  induction l with
  | nil =>
    intro cur hcur t ht
    simp only [pySplitGo] at ht
    by_cases hc : cur = []
    · simp [hc] at ht
    · simp only [if_neg hc, List.mem_singleton] at ht
      subst ht
      exact ⟨by simpa using hc, fun c hcm => hcur c (by simpa using hcm)⟩
  | cons c cs ih =>
    intro cur hcur t ht
    simp only [pySplitGo] at ht
    by_cases hc : c.isWhitespace
    · rw [if_pos hc] at ht
      by_cases hcu : cur = []
      · rw [if_pos hcu] at ht
        exact ih [] (by simp) t ht
      · rw [if_neg hcu] at ht
        rcases List.mem_cons.mp ht with h1 | h2
        · subst h1
          exact ⟨by simpa using hcu, fun d hdm => hcur d (by simpa using hdm)⟩
        · exact ih [] (by simp) t h2
    · rw [if_neg hc] at ht
      refine ih (c :: cur) ?_ t ht
      intro d hd
      rcases List.mem_cons.mp hd with h1 | h2
      · subst h1; exact hc
      · exact hcur d h2

theorem pySplit_mem_wf {l : Str} {t : Str} (ht : t ∈ pySplit l) : wfToken t :=
  pySplitGo_mem_wf l [] (by simp) t ht

theorem pyRstrip_decomp (l : Str) :
    ∃ w, (∀ c ∈ w, c.isWhitespace) ∧ l = pyRstrip l ++ w := by
  refine ⟨(l.reverse.takeWhile Char.isWhitespace).reverse, ?_, ?_⟩
  · intro c hc
    rw [List.mem_reverse] at hc
    exact List.mem_takeWhile_imp hc
  · unfold pyRstrip
    conv_lhs => rw [← List.reverse_reverse l,
      ← List.takeWhile_append_dropWhile Char.isWhitespace l.reverse]
    rw [List.reverse_append]

theorem pySplit_rstrip (l : Str) : pySplit (pyRstrip l) = pySplit l := by
  obtain ⟨w, hw, hl⟩ := pyRstrip_decomp l
  conv_rhs => rw [hl]
  unfold pySplit
  rw [pySplitGo_trailing_ws _ hw]

theorem tokenCount_ws_mid (a b : Str) :
    tokenCount (a ++ ' ' :: b) = tokenCount a + tokenCount b := by
  unfold tokenCount pySplit
  rw [pySplitGo_ws_mid]
  simp [pySplit]

theorem tokenCount_joinSp {ts : List Str} (h : ∀ t ∈ ts, wfToken t) :
    tokenCount (joinSp ts) = ts.length := by
  unfold tokenCount
  rw [pySplit_joinSp h]

/-!  Conservation lemmas for the token distribution of
`Migration.split_transcript_data`. -/

namespace Migration

theorem grabSyllables_append : ∀ (n : Nat) (ts : List Str),
    (grabSyllables n ts).1 ++ (grabSyllables n ts).2 = ts := by
  intro n ts
  induction ts generalizing n with
  | nil => cases n <;> rfl
  | cons t ts ih =>
    cases n with
    | zero => rfl
    | succ m =>
      simp only [grabSyllables]
      by_cases h : t ∈ punctuation <;> simp [h, ih]

theorem grabTrailing_append : ∀ ts : List Str,
    (grabTrailing ts).1 ++ (grabTrailing ts).2 = ts := by
  intro ts
  induction ts with
  | nil => rfl
  | cons t ts ih =>
    simp only [grabTrailing]
    by_cases h : t ∈ punctuation <;> simp [h, ih]

theorem distributeTokens_append : ∀ (cs : List Nat) (ts : List Str),
    joinL (distributeTokens cs ts).1 ++ (distributeTokens cs ts).2 = ts := by
  intro cs
  induction cs with
  | nil => intro ts; simp [distributeTokens, joinL]
  | cons c rest ih =>
    intro ts
    have h3 := ih (grabTrailing (grabSyllables c ts).2).2
    simp only [joinL] at h3 ⊢
    simp only [distributeTokens, List.flatten_cons, List.append_assoc]
    rw [h3, grabTrailing_append, grabSyllables_append]

theorem distributeTokens_length (cs : List Nat) (ts : List Str) :
    (distributeTokens cs ts).1.length = cs.length := by
  induction cs generalizing ts with
  | nil => rfl
  | cons c rest ih => simp [distributeTokens, ih]

theorem distributeTokens_mem_part_wf {cs : List Nat} {ts : List Str}
    (hts : ∀ t ∈ ts, wfToken t) :
    ∀ part ∈ (distributeTokens cs ts).1, ∀ t ∈ part, wfToken t := by
  intro part hpart t htp
  apply hts
  have : t ∈ joinL (distributeTokens cs ts).1 := by
    rw [joinL, List.mem_flatten]
    exact ⟨part, hpart, htp⟩
  rw [← distributeTokens_append cs ts]
  exact List.mem_append_left _ this

theorem distributeTokens_rest_wf {cs : List Nat} {ts : List Str}
    (hts : ∀ t ∈ ts, wfToken t) :
    ∀ t ∈ (distributeTokens cs ts).2, wfToken t := by
  intro t htp
  apply hts
  rw [← distributeTokens_append cs ts]
  exact List.mem_append_right _ htp

theorem spliceLeftover_tokenCount (x : Str) :
    ∀ rs : List Str, rs ≠ [] →
      ((spliceLeftover x rs).map tokenCount).sum =
        (rs.map tokenCount).sum + tokenCount x := by
  intro rs
  induction rs with
  | nil => intro h; exact absurd rfl h
  | cons r rest ih =>
    intro _
    cases rest with
    | nil =>
      simp [spliceLeftover, tokenCount_ws_mid]
    | cons r2 rest2 =>
      have := ih (by simp)
      simp only [spliceLeftover, List.map_cons, List.sum_cons, this]
      omega

theorem spliceLeftover_length (x : Str) :
    ∀ rs : List Str, (spliceLeftover x rs).length = rs.length := by
  intro rs
  induction rs with
  | nil => rfl
  | cons r rest ih =>
    cases rest with
    | nil => rfl
    | cons r2 rest2 => simpa [spliceLeftover] using ih

theorem fixBoundaries_tokenCount : ∀ (rs segs : List Str),
    ((fixBoundaries rs segs).map tokenCount).sum =
      (rs.map tokenCount).sum + fixCount rs segs := by
  intro rs
  induction rs with
  | nil => intro segs; rfl
  | cons r rest ih =>
    intro segs
    cases rest with
    | nil => simp [fixBoundaries, fixCount]
    | cons r2 rest2 =>
      simp only [fixBoundaries, fixCount, List.map_cons, List.sum_cons, ih]
      cases segs with
      | nil => simp <;> omega
      | cons s segs2 =>
        have hfix : tokenCount (pyRstrip r ++ [' ', '.']) = tokenCount r + 1 := by
          have h1 : tokenCount (pyRstrip r ++ ' ' :: ['.']) =
              tokenCount (pyRstrip r) + tokenCount ['.'] := tokenCount_ws_mid _ _
          have h2 : tokenCount (pyRstrip r) = tokenCount r := by
            unfold tokenCount
            rw [pySplit_rstrip]
          simpa [h2, show tokenCount ['.'] = 1 from rfl] using h1
        cases hc : (decide (s.head? = some '\n') && decide (r ≠ []) && !endsWithDot r) with
        | false => simp only [hc, Bool.false_eq_true, if_false] <;> omega
        | true => simp only [hc, if_true, hfix] <;> omega

theorem fixBoundaries_length : ∀ (rs segs : List Str),
    (fixBoundaries rs segs).length = rs.length := by
  intro rs
  induction rs with
  | nil => intro segs; rfl
  | cons r rest ih =>
    intro segs
    cases rest with
    | nil => rfl
    | cons r2 rest2 => simpa [fixBoundaries] using ih (segs.drop 1)

theorem fixCount_le : ∀ (rs segs : List Str), rs ≠ [] →
    fixCount rs segs + 1 ≤ rs.length := by
  intro rs
  induction rs with
  | nil => intro segs h; exact absurd rfl h
  | cons r rest ih =>
    intro segs _
    cases rest with
    | nil => simp [fixCount]
    | cons r2 rest2 =>
      have hi := ih (segs.drop 1) (by simp)
      simp only [List.length_cons] at hi
      cases segs with
      | nil =>
        simp only [fixCount, List.length_cons]
        simp only [List.drop_nil] at hi ⊢
        omega
      | cons s segs2 =>
        simp only [fixCount, List.length_cons]
        simp only [List.drop_succ_cons, List.drop_zero] at hi ⊢
        split <;> omega

theorem fixCount_zero : ∀ (rs segs : List Str),
    (∀ s ∈ segs, s.head? ≠ some '\n') → fixCount rs segs = 0 := by
  intro rs
  induction rs with
  | nil => intro segs _; rfl
  | cons r rest ih =>
    intro segs hsegs
    cases rest with
    | nil => rfl
    | cons r2 rest2 =>
      have h2 := ih (segs.drop 1) (fun s hs => hsegs s (by
        rcases segs with _ | ⟨s0, segs'⟩
        · simp at hs
        · simp at hs
          simp [hs]))
      simp only [fixCount, h2]
      cases segs with
      | nil => rfl
      | cons s segs' =>
        have := hsegs s (by simp)
        simp [this]

theorem zipWith_mk_ipa : ∀ (a b : List Str), a.length = b.length →
    (List.zipWith (fun i t => IpaTupa.mk i t) a b).map (fun r => r.ipa) = a := by
  intro a
  induction a with
  | nil => intro b _; rfl
  | cons x xs ih =>
    intro b hb
    cases b with
    | nil => simp at hb
    | cons y ys =>
      simp only [List.zipWith_cons_cons, List.map_cons]
      rw [ih ys (by simpa using hb)]

theorem zipWith_mk_tupa : ∀ (a b : List Str), a.length = b.length →
    (List.zipWith (fun i t => IpaTupa.mk i t) a b).map (fun r => r.tupa) = b := by
  intro a
  induction a with
  | nil =>
    intro b hb
    cases b with
    | nil => rfl
    | cons y ys => simp at hb
  | cons x xs ih =>
    intro b hb
    cases b with
    | nil => simp at hb
    | cons y ys =>
      simp only [List.zipWith_cons_cons, List.map_cons]
      rw [ih ys (by simpa using hb)]

theorem distributedResults_length (orig : Str) (counts : List Nat) :
    (distributedResults orig counts).length = counts.length := by
  unfold distributedResults
  dsimp only
  split
  · rw [spliceLeftover_length, List.length_map, distributeTokens_length]
  · rw [List.length_map, distributeTokens_length]

theorem distributedResults_tokens (orig : Str) {counts : List Nat}
    (hne : counts ≠ []) :
    ((distributedResults orig counts).map tokenCount).sum = tokenCount orig := by
  have hwf : ∀ t ∈ pySplit orig, wfToken t := fun t ht => pySplit_mem_wf ht
  have hmap : (distributeTokens counts (pySplit orig)).1.map
      (fun part => tokenCount (joinSp part)) =
      (distributeTokens counts (pySplit orig)).1.map List.length := by
    apply List.map_congr_left
    intro part hpart
    exact tokenCount_joinSp (distributeTokens_mem_part_wf hwf part hpart)
  have hlen : ((distributeTokens counts (pySplit orig)).1.map List.length).sum +
      (distributeTokens counts (pySplit orig)).2.length =
      (pySplit orig).length := by
    have := congrArg List.length (distributeTokens_append counts (pySplit orig))
    simpa [joinL, List.length_append, List.length_flatten] using this
  have hr0sum : (((distributeTokens counts (pySplit orig)).1.map joinSp).map
      tokenCount).sum + (distributeTokens counts (pySplit orig)).2.length =
      tokenCount orig := by
    rw [List.map_map]
    show ((distributeTokens counts (pySplit orig)).1.map
      (fun part => tokenCount (joinSp part))).sum + _ = _
    rw [hmap]
    exact hlen
  unfold distributedResults
  dsimp only
  split
  · rename_i hcond
    rw [spliceLeftover_tokenCount _ _ (by
      simp only [Bool.and_eq_true, decide_eq_true_eq] at hcond
      exact hcond.2)]
    rw [tokenCount_joinSp (fun t ht => distributeTokens_rest_wf hwf t ht)]
    exact hr0sum
  · rename_i hcond
    simp only [Bool.and_eq_true, decide_eq_true_eq, not_and] at hcond
    by_cases hrest : (distributeTokens counts (pySplit orig)).2 = []
    · rw [← hr0sum, hrest]
      simp
    · exfalso
      have hr0nil : ((distributeTokens counts (pySplit orig)).1.map joinSp) = [] := by
        have h0 := hcond hrest
        simpa using h0
      have hc0 : counts.length = 0 := by
        have hl := congrArg List.length hr0nil
        simpa [distributeTokens_length] using hl
      exact hne (List.length_eq_zero.mp hc0)

end Migration

/-!  Claim theorems. -/

/-- Claim C1 (counterexample): redistributing the token stream
`["a","b","c",".","d"]` across two new sentences whose ideograph counts are 2
and 1 does NOT yield `[["a","b","."],["c","d"]]` as the claim states: the
`.` token follows `c` in the stream, so it cannot be attached to the first
segment. -/
theorem c1_example_claim_false :
    ((Migration.split_transcript_data "a b c . d".toList "a b c . d".toList
        ["天地".toList, "人".toList]).map (fun r => pySplit r.ipa)) ≠
      [["a".toList, "b".toList, ".".toList], ["c".toList, "d".toList]] := by
  decide

/-- Claim C1 (amended): on the stream `["a","b","c",".","d"]` with ideograph
counts 2 and 1 (neither new sentence newline-initial), the redistributor
returns the token lists `[["a","b"],["c",".","d"]]` — the first segment takes
two syllables, the second takes `c` plus its trailing `.`, and the leftover
`d` is appended to the last segment. -/
theorem c1_example_actual :
    Migration.split_transcript_data "a b c . d".toList "a b c . d".toList
        ["天地".toList, "人".toList] =
      [⟨"a b".toList, "a b".toList⟩, ⟨"c . d".toList, "c . d".toList⟩] ∧
    ((Migration.split_transcript_data "a b c . d".toList "a b c . d".toList
        ["天地".toList, "人".toList]).map (fun r => pySplit r.ipa)) =
      [["a".toList, "b".toList], ["c".toList, ".".toList, "d".toList]] := by
  constructor
  · decide
  · decide

/-- Claim C8 (counterexample): token conservation fails when the new
sentences contain no ideographs: the whole stream `["a"]` is discarded (the
output is one empty record), not appended to the last list, and the total is
neither the stream length nor the stream length plus one boundary token. -/
theorem c8_conservation_claim_false :
    Migration.split_transcript_data "a".toList "a".toList ["x".toList] =
        [⟨[], []⟩] ∧
    ((Migration.split_transcript_data "a".toList "a".toList
        ["x".toList]).map (fun r => tokenCount r.ipa)).sum = 0 ∧
    tokenCount "a".toList = 1 := by
  refine ⟨by decide, by decide, by decide⟩

/-- Claim C8 (amended): provided the total ideograph count of the new
sentences is nonzero, the redistributor conserves tokens: the summed token
counts of the outputs equal the input stream's token count plus the number of
inserted boundary terminators — at most one per new sentence beyond the
first, and zero when no later new sentence starts with a newline (trailing
unconsumed tokens are thus grouped into the outputs, not discarded). -/
theorem c8_conservation (ipa tupa : Str) (segs : List Str)
    (h : (segs.map Migration.count_han_chars).sum ≠ 0) :
    ∃ k1 k2 : Nat, k1 + 1 ≤ segs.length ∧ k2 + 1 ≤ segs.length ∧
      ((Migration.split_transcript_data ipa tupa segs).map
          (fun r => tokenCount r.ipa)).sum = tokenCount ipa + k1 ∧
      ((Migration.split_transcript_data ipa tupa segs).map
          (fun r => tokenCount r.tupa)).sum = tokenCount tupa + k2 ∧
      ((∀ s ∈ segs.drop 1, s.head? ≠ some '\n') → k1 = 0 ∧ k2 = 0) := by
  have hsegs : segs ≠ [] := by
    intro hnil
    rw [hnil] at h
    exact h rfl
  have hcne : segs.map Migration.count_han_chars ≠ [] := by
    simpa using hsegs
  set counts := segs.map Migration.count_han_chars with hcounts
  have hclen : counts.length = segs.length := by
    rw [hcounts, List.length_map]
  set ipaR := Migration.fixBoundaries (Migration.distributedResults ipa counts)
    (segs.drop 1) with hipaR
  set tupaR := Migration.fixBoundaries (Migration.distributedResults tupa counts)
    (segs.drop 1) with htupaR
  have hlenI : ipaR.length = counts.length := by
    rw [hipaR, Migration.fixBoundaries_length, Migration.distributedResults_length]
  have hlenT : tupaR.length = counts.length := by
    rw [htupaR, Migration.fixBoundaries_length, Migration.distributedResults_length]
  have hres : Migration.split_transcript_data ipa tupa segs =
      List.zipWith (fun i t => Migration.IpaTupa.mk i t) ipaR tupaR := by
    unfold Migration.split_transcript_data
    dsimp only
    rw [if_neg h]
  refine ⟨Migration.fixCount (Migration.distributedResults ipa counts)
      (segs.drop 1),
    Migration.fixCount (Migration.distributedResults tupa counts)
      (segs.drop 1), ?_, ?_, ?_, ?_, ?_⟩
  · have := Migration.fixCount_le (Migration.distributedResults ipa counts)
      (segs.drop 1) (by
        intro hnil0
        have := congrArg List.length hnil0
        rw [Migration.distributedResults_length, hclen] at this
        exact hsegs (List.length_eq_zero.mp this))
    rw [Migration.distributedResults_length, hclen] at this
    exact this
  · have := Migration.fixCount_le (Migration.distributedResults tupa counts)
      (segs.drop 1) (by
        intro hnil
        have := congrArg List.length hnil
        rw [Migration.distributedResults_length, hclen] at this
        exact hsegs (List.length_eq_zero.mp this))
    rw [Migration.distributedResults_length, hclen] at this
    exact this
  · rw [hres]
    have hproj : (List.zipWith (fun i t => Migration.IpaTupa.mk i t) ipaR
        tupaR).map (fun r => tokenCount r.ipa) = ipaR.map tokenCount := by
      have h1 := Migration.zipWith_mk_ipa ipaR tupaR (by rw [hlenI, hlenT])
      calc (List.zipWith (fun i t => Migration.IpaTupa.mk i t) ipaR
          tupaR).map (fun r => tokenCount r.ipa) =
          ((List.zipWith (fun i t => Migration.IpaTupa.mk i t) ipaR
            tupaR).map (fun r => r.ipa)).map tokenCount := by
            rw [List.map_map]
            rfl
        _ = ipaR.map tokenCount := by rw [h1]
    rw [hproj, hipaR, Migration.fixBoundaries_tokenCount,
      Migration.distributedResults_tokens ipa hcne]
  · rw [hres]
    have hproj : (List.zipWith (fun i t => Migration.IpaTupa.mk i t) ipaR
        tupaR).map (fun r => tokenCount r.tupa) = tupaR.map tokenCount := by
      have h1 := Migration.zipWith_mk_tupa ipaR tupaR (by rw [hlenI, hlenT])
      calc (List.zipWith (fun i t => Migration.IpaTupa.mk i t) ipaR
          tupaR).map (fun r => tokenCount r.tupa) =
          ((List.zipWith (fun i t => Migration.IpaTupa.mk i t) ipaR
            tupaR).map (fun r => r.tupa)).map tokenCount := by
            rw [List.map_map]
            rfl
        _ = tupaR.map tokenCount := by rw [h1]
    rw [hproj, htupaR, Migration.fixBoundaries_tokenCount,
      Migration.distributedResults_tokens tupa hcne]
  · intro hnl
    constructor
    · exact Migration.fixCount_zero _ _ hnl
    · exact Migration.fixCount_zero _ _ hnl

/-- Claim C8 witness: the amended conservation theorem applied at a concrete
input with a newline boundary: stream `["a","b"]`, segments `["一", "\n二"]`. -/
theorem c8_conservation_witness :
    ((["一".toList, "\n二".toList].map Migration.count_han_chars).sum ≠ 0) ∧
    ∃ k1 k2 : Nat,
      k1 + 1 ≤ ([["一".toList, "\n二".toList]].flatten).length ∧
      k2 + 1 ≤ ([["一".toList, "\n二".toList]].flatten).length ∧
      ((Migration.split_transcript_data "a b".toList "a b".toList
          ["一".toList, "\n二".toList]).map (fun r => tokenCount r.ipa)).sum =
        tokenCount "a b".toList + k1 ∧
      ((Migration.split_transcript_data "a b".toList "a b".toList
          ["一".toList, "\n二".toList]).map (fun r => tokenCount r.tupa)).sum =
        tokenCount "a b".toList + k2 ∧
      ((∀ s ∈ ["一".toList, "\n二".toList].drop 1, s.head? ≠ some '\n') →
        k1 = 0 ∧ k2 = 0) :=
  ⟨by decide, c8_conservation "a b".toList "a b".toList
    ["一".toList, "\n二".toList] (by decide)⟩

/-- Claim C9: inside a `『…』` quotation a terminator never flushes (the
machine just appends it); at a closing `』` the buffer is flushed exactly when
the previous character is a terminator and the next character is not one; and
the quoted example segments as a single sentence. -/
theorem c9_quote_suppression :
    (∀ (ps : Bool) (prev : Option Char) (buf rest : Str) (acc : List Str)
        (c : Char), c ∈ terminators →
        BuildSentences.processBS ps prev true buf (c :: rest) acc =
          BuildSentences.processBS ps (some c) true (buf ++ [c]) rest acc) ∧
    (∀ (ps : Bool) (p : Char) (inside : Bool) (buf rest : Str)
        (acc : List Str),
        BuildSentences.processBS ps (some p) inside buf ('』' :: rest) acc =
          if p ∈ terminators ∧ ∀ n ∈ rest.head?, n ∉ terminators then
            BuildSentences.processBS ps (some '』') false [] rest
              (acc ++ [if ps then buf ++ ['』'] else pyStrip (buf ++ ['』'])])
          else
            BuildSentences.processBS ps (some '』') false (buf ++ ['』'])
              rest acc) ∧
    BuildSentences.split_chinese_sentences false
        "曰『爾雖人。於我實芻狗也。』".toList =
      ["曰『爾雖人。於我實芻狗也。』".toList] := by
  refine ⟨?_, ?_, by decide⟩
  · intro ps prev buf rest acc c hc
    simp only [terminators, List.mem_cons, List.not_mem_nil, or_false] at hc
    rcases hc with h | h | h <;> subst h <;>
      simp [BuildSentences.processBS, terminators]
  · intro ps p inside buf rest acc
    have hflush : ((if ps then buf ++ ['』'] else pyStrip (buf ++ ['』']))) ≠ [] := by
      cases ps with
      | true => simp
      | false =>
        simp only [if_false, Bool.false_eq_true]
        exact pyStrip_nonempty_of_mem_not_ws (c := '』') (by simp) (by decide)
    by_cases hp : p ∈ terminators
    · cases rest with
      | nil =>
        simp only [BuildSentences.processBS]
        simp [hp, appendIfNonempty, hflush]
      | cons n rest' =>
        by_cases hn : n ∈ terminators
        · simp only [BuildSentences.processBS]
          simp [hp, hn, appendIfNonempty, hflush]
        · simp only [BuildSentences.processBS]
          simp [hp, hn, appendIfNonempty, hflush]
    · simp only [BuildSentences.processBS]
      simp [hp, appendIfNonempty, hflush]

/-- Claim C9 witness: the step equations applied at concrete states: a `。`
inside quotes appends without flushing, and a `』` preceded by `。` with no
following terminator flushes the quoted sentence. -/
theorem c9_quote_suppression_witness :
    ('。' ∈ terminators ∧
      BuildSentences.processBS false none true ['甲'] ['。'] [] =
        BuildSentences.processBS false (some '。') true ['甲', '。'] [] []) ∧
    BuildSentences.processBS false (some '。') false ['甲'] ['』'] [] =
      BuildSentences.processBS false (some '』') false [] []
        ([] ++ [pyStrip ['甲', '』']]) := by
  constructor
  · exact ⟨by decide, c9_quote_suppression.1 false none ['甲'] [] [] '。'
      (by decide)⟩
  · have h := c9_quote_suppression.2.1 false '。' false ['甲'] [] []
    rw [h]
    rw [if_pos (by constructor
                   · decide
                   · intro n hn
                     simp at hn)]
    decide

/-- Claim C2 (counterexample): when the cursors' sentences match in none of
the three ways, `migrate_chapter` does NOT attribute the old/new pair to each
other: with old `甲` (ipa `ka`) against new `乙`, the old-ids map stays empty
and the new sentence receives an empty placeholder, so the old annotation is
dropped rather than positionally attributed. -/
theorem c2_fallback_claim_false :
    (Migration.migrate_chapter_loop
        [⟨"c1-s1", ['甲'], ⟨['甲'], ['k', 'a'], ['k', 'a'], []⟩⟩]
        [⟨"c1-s1", ['乙']⟩]).2 ≠ [("c1-s1", ["c1-s1"])] ∧
    Migration.migrate_chapter_loop
        [⟨"c1-s1", ['甲'], ⟨['甲'], ['k', 'a'], ['k', 'a'], []⟩⟩]
        [⟨"c1-s1", ['乙']⟩] =
      ([("c1-s1", ⟨['乙'], [], [], []⟩)], []) := by
  constructor
  · intro hcontra
    have : (Migration.migrate_chapter_loop
        [⟨"c1-s1", ['甲'], ⟨['甲'], ['k', 'a'], ['k', 'a'], []⟩⟩]
        [⟨"c1-s1", ['乙']⟩]).2 = [] := by
      simp [Migration.migrate_chapter_loop, Migration.normalize_text,
        Migration.placeholderData, pySplit, pySplitGo, joinL,
        Migration.accumulateOlds, Migration.accumulateNews]
    rw [this] at hcontra
    exact List.noConfusion hcontra
  · simp [Migration.migrate_chapter_loop, Migration.normalize_text,
      Migration.placeholderData, pySplit, pySplitGo, joinL,
      Migration.accumulateOlds, Migration.accumulateNews]

/-- Claim C2 (amended): when the old and new sentences at the cursors match
neither exactly nor by merge accumulation nor by split accumulation, the
migration loop records an empty placeholder transcript under the new
sentence's ID (keeping the new source), adds no old-to-new correspondence,
leaves the old cursor unchanged and advances only the new cursor; the old
sentence's data is not attributed to the new sentence. -/
theorem c2_fallback_placeholder (old_s : Migration.OldSentence)
    (oldsRest : List Migration.OldSentence) (new_s : Migration.NewSentence)
    (newsRest : List Migration.NewSentence)
    (h1 : Migration.normalize_text new_s.source ≠
      Migration.normalize_text old_s.source)
    (h2 : (Migration.normalize_text old_s.source).isPrefixOf
        (Migration.normalize_text new_s.source) = true →
      Migration.accumulateOlds (Migration.normalize_text new_s.source)
        (Migration.normalize_text old_s.source) oldsRest = none)
    (h3 : (Migration.normalize_text new_s.source).isPrefixOf
        (Migration.normalize_text old_s.source) = true →
      Migration.accumulateNews (Migration.normalize_text old_s.source)
        (Migration.normalize_text new_s.source) newsRest = none) :
    Migration.migrate_chapter_loop (old_s :: oldsRest) (new_s :: newsRest) =
      ((new_s.id, Migration.placeholderData new_s.source) ::
          (Migration.migrate_chapter_loop (old_s :: oldsRest) newsRest).1,
        (Migration.migrate_chapter_loop (old_s :: oldsRest) newsRest).2) := by
  have hm : (if (Migration.normalize_text old_s.source).isPrefixOf
        (Migration.normalize_text new_s.source) then
      Migration.accumulateOlds (Migration.normalize_text new_s.source)
        (Migration.normalize_text old_s.source) oldsRest
    else none) = none := by
    cases hp : (Migration.normalize_text old_s.source).isPrefixOf
        (Migration.normalize_text new_s.source) with
    | true => simp [hp, h2 hp]
    | false => simp [hp]
  have hs : (if (Migration.normalize_text new_s.source).isPrefixOf
        (Migration.normalize_text old_s.source) then
      Migration.accumulateNews (Migration.normalize_text old_s.source)
        (Migration.normalize_text new_s.source) newsRest
    else none) = none := by
    cases hp : (Migration.normalize_text new_s.source).isPrefixOf
        (Migration.normalize_text old_s.source) with
    | true => simp [hp, h3 hp]
    | false => simp [hp]
  rw [Migration.migrate_chapter_loop]
  simp only [hm, hs, if_neg h1]

/-- Claim C2 witness: the amended fallback theorem at the concrete mismatch
`甲` vs `乙` with empty rests. -/
theorem c2_fallback_placeholder_witness :
    Migration.migrate_chapter_loop
        [⟨"w-s1", ['甲'], ⟨['甲'], ['k'], ['k'], []⟩⟩] [⟨"w-s1", ['丙']⟩] =
      (("w-s1", Migration.placeholderData ['丙']) ::
          (Migration.migrate_chapter_loop
            [⟨"w-s1", ['甲'], ⟨['甲'], ['k'], ['k'], []⟩⟩] []).1,
        (Migration.migrate_chapter_loop
          [⟨"w-s1", ['甲'], ⟨['甲'], ['k'], ['k'], []⟩⟩] []).2) :=
  c2_fallback_placeholder ⟨"w-s1", ['甲'], ⟨['甲'], ['k'], ['k'], []⟩⟩ []
    ⟨"w-s1", ['丙']⟩ [] (by decide) (fun _ => rfl) (fun _ => rfl)

/-- Claim C6 (counterexample): the span-multiple conditions as claimed (both
containments) are not sufficient: with a canonical sentence whose source is
whitespace-only (normalization empty, hence trivially contained) followed by
one matching the unit, the engine takes the 1:1 branch and attributes only
the first ID, not both. -/
theorem c6_span_claim_false :
    (SegmentText.map_segments_to_sentence_ids
        ⟨"c1", 1, [⟨"1-1", 1, ['甲'], false, none⟩]⟩
        [⟨"s1", none, [' ']⟩, ⟨"s2", none, ['甲']⟩]).map
      (fun r => r.sentence_ids) = [["s1"]] ∧
    (["s1"] : List String) ≠ ["s1", "s2"] := by
  constructor
  · simp [SegmentText.map_segments_to_sentence_ids, SegmentText.mapSegmentsGo,
      SegmentText.split_chinese_sentences, SegmentText.processST,
      SegmentText.mapCnUnits, SegmentText.attributeCn,
      SegmentText.normalize_for_comparison, SegmentText.collapseWS,
      SegmentText.renumberRecords, SegmentText.optTruthy,
      SegmentText.defaultEntry, pyStrip, appendIfNonempty, containsSub,
      BuildSentences.btick]
  · decide

/-- Claim C6 (amended): when the normalized canonical sentence at the cursor
and the normalized observed unit are both nonempty, the canonical sentence is
contained in the unit, a next canonical sentence exists with nonempty
normalization and nonempty ID, the current entry's ID is nonempty, and the
space-free concatenation is contained in the space-free unit, the engine
attributes both IDs and advances the cursor by exactly 2; and the spec's
`曰三…` example does attribute both canonical IDs to the single observed
segment. -/
theorem c6_span_multiple :
    (∀ (sentences : List SegmentText.SentenceEntry) (cn : Str) (idx : Nat),
      (sentences.getD idx SegmentText.defaultEntry).id ≠ "" →
      SegmentText.normalize_for_comparison
        (sentences.getD idx SegmentText.defaultEntry).source ≠ [] →
      SegmentText.normalize_for_comparison cn ≠ [] →
      idx + 1 < sentences.length →
      (sentences.getD (idx + 1) SegmentText.defaultEntry).id ≠ "" →
      SegmentText.normalize_for_comparison
        (sentences.getD (idx + 1) SegmentText.defaultEntry).source ≠ [] →
      containsSub (SegmentText.normalize_for_comparison cn)
        (SegmentText.normalize_for_comparison
          (sentences.getD idx SegmentText.defaultEntry).source) = true →
      containsSub
        ((SegmentText.normalize_for_comparison cn).filter (fun c => c ≠ ' '))
        ((SegmentText.normalize_for_comparison
            (sentences.getD idx SegmentText.defaultEntry).source ++
          ' ' :: SegmentText.normalize_for_comparison
            (sentences.getD (idx + 1) SegmentText.defaultEntry).source).filter
          (fun c => c ≠ ' ')) = true →
      SegmentText.attributeCn sentences cn idx =
        ([(sentences.getD idx SegmentText.defaultEntry).id,
          (sentences.getD (idx + 1) SegmentText.defaultEntry).id], idx + 2)) ∧
    (SegmentText.map_segments_to_sentence_ids
        ⟨"c1", 1, [⟨"1-1", 1, "曰三 曰『問天地好在。』者。".toList, false,
          none⟩]⟩
        [⟨"c1-s1", none, "曰三 曰『問天地好在。』".toList⟩,
         ⟨"c1-s2", none, "者。".toList⟩]).map (fun r => r.sentence_ids) =
      [["c1-s1", "c1-s2"]] := by
  constructor
  · intro sentences cn idx he hnorm hcn hidx hne hnn hc1 hc2
    unfold SegmentText.attributeCn
    simp only [ne_eq]
    rw [if_pos (by
      simp only [Bool.and_eq_true, decide_eq_true_eq, ne_eq]
      refine ⟨⟨⟨by simpa using hnorm, by simpa using hcn⟩, hc1⟩, ?_⟩
      refine ⟨by simpa using hidx, by simpa using hnn, hc2⟩)]
    rw [if_pos hidx]
    simp only [List.getD_eq_getElem?_getD] at he hne
    simp [he, hne]
  · simp [SegmentText.map_segments_to_sentence_ids, SegmentText.mapSegmentsGo,
      SegmentText.split_chinese_sentences, SegmentText.processST,
      SegmentText.mapCnUnits, SegmentText.attributeCn,
      SegmentText.normalize_for_comparison, SegmentText.collapseWS,
      SegmentText.renumberRecords, SegmentText.optTruthy,
      SegmentText.defaultEntry, pyStrip, appendIfNonempty, containsSub,
      BuildSentences.btick]

/-- Claim C6 witness: the span-multiple step at a concrete state — unit
`甲乙` against canonical `["甲", "乙"]` consumes both IDs and advances the
cursor from 0 to 2. -/
theorem c6_span_multiple_witness :
    SegmentText.attributeCn
        [⟨"s1", none, ['甲']⟩, ⟨"s2", none, ['乙']⟩] ['甲', '乙'] 0 =
      (["s1", "s2"], 2) := by
  have h := c6_span_multiple.1 [⟨"s1", none, ['甲']⟩, ⟨"s2", none, ['乙']⟩]
    ['甲', '乙'] 0 (by decide) (by decide) (by decide) (by decide) (by decide)
    (by decide) (by decide) (by decide)
  simpa using h

/-- Members of `appendIfNonempty acc (pyStrip x)` are nonempty with a
non-whitespace head whenever the accumulator's members are. -/
theorem mem_appendIfNonempty_pyStrip {acc : List Str} {x : Str}
    (h : ∀ s ∈ acc, s ≠ [] ∧ ∀ c, s.head? = some c → ¬c.isWhitespace) :
    ∀ s ∈ appendIfNonempty acc (pyStrip x),
      s ≠ [] ∧ ∀ c, s.head? = some c → ¬c.isWhitespace := by
  intro s hs
  unfold appendIfNonempty at hs
  by_cases hx : pyStrip x = []
  · rw [if_pos hx] at hs
    exact h s hs
  · rw [if_neg hx] at hs
    rcases List.mem_append.mp hs with h1 | h2
    · exact h s h1
    · rw [List.mem_singleton] at h2
      subst h2
      exact ⟨hx, fun c hc => pyStrip_head_not_ws hc⟩

/-- Every sentence accumulated by the segment-text state machine is nonempty
and starts with a non-whitespace character (every flush strips). -/
theorem processST_output_stripped :
    ∀ (prev : Option Char) (inside : Bool) (buf rest : Str) (acc : List Str),
      (∀ s ∈ acc, s ≠ [] ∧ ∀ c, s.head? = some c → ¬c.isWhitespace) →
      ∀ s ∈ SegmentText.processST prev inside buf rest acc,
        s ≠ [] ∧ ∀ c, s.head? = some c → ¬c.isWhitespace := by
  intro prev inside buf rest acc
  induction prev, inside, buf, rest, acc using SegmentText.processST.induct with
  | case1 prev inside buf acc =>
    intro hacc s hs
    simp only [SegmentText.processST] at hs
    exact mem_appendIfNonempty_pyStrip hacc s hs
  | case2 prev inside buf acc cs ih =>
    intro hacc s hs
    rw [SegmentText.processST.eq_def] at hs
    simp only [if_pos rfl] at hs
    exact ih hacc s hs
  | case3 prev inside buf acc cs fl hflush h1 bufp ih =>
    intro hacc s hs
    rw [SegmentText.processST.eq_def] at hs
    simp only [h1, if_true, if_false] at hs
    rw [if_pos hflush] at hs
    exact ih (mem_appendIfNonempty_pyStrip hacc) s hs
  | case4 prev inside buf acc cs fl hflush h1 bufp ih =>
    intro hacc s hs
    rw [SegmentText.processST.eq_def] at hs
    simp only [h1, if_true, if_false] at hs
    rw [if_neg hflush] at hs
    exact ih hacc s hs
  | case5 prev inside buf acc cs hlook h1 h2 bufp ih =>
    intro hacc s hs
    rw [SegmentText.processST.eq_def] at hs
    simp only [h1, h2, hlook, if_true, if_false] at hs
    exact ih (mem_appendIfNonempty_pyStrip hacc) s hs
  | case6 prev inside buf acc cs hlook h1 h2 bufp ih =>
    intro hacc s hs
    rw [SegmentText.processST.eq_def] at hs
    simp only [h1, h2, hlook, if_true, if_false] at hs
    exact ih hacc s hs
  | case7 prev inside buf acc c cs h1 h2 h3 hnl run ih =>
    intro hacc s hs
    rw [SegmentText.processST.eq_def] at hs
    simp only [h1, h2, h3, hnl, if_true, if_false] at hs
    exact ih (mem_appendIfNonempty_pyStrip hacc) s hs
  | case8 prev inside buf acc c cs h1 h2 h3 hnl hterm ih =>
    intro hacc s hs
    rw [SegmentText.processST.eq_def] at hs
    simp only [h1, h2, h3, hnl, hterm, if_true, if_false] at hs
    exact ih (mem_appendIfNonempty_pyStrip hacc) s hs
  | case9 prev inside buf acc c cs h1 h2 h3 hnl hterm ih =>
    intro hacc s hs
    rw [SegmentText.processST.eq_def] at hs
    simp only [h1, h2, h3, hnl, hterm, if_true, if_false] at hs
    exact ih hacc s hs

/-- Claim C3 (counterexample): on `"甲\n乙。"` the segmenter flushes `甲`
before the newline run, but the sentence produced after the run is `乙。`,
not `\n乙。` — the newline run seeds the next buffer yet is stripped at the
flush, so it does not survive as a prefix. -/
theorem c3_newline_prefix_claim_false :
    SegmentText.split_chinese_sentences ['甲', '\n', '乙', '。'] =
      [['甲'], ['乙', '。']] ∧
    SegmentText.split_chinese_sentences ['甲', '\n', '乙', '。'] ≠
      [['甲'], ['\n', '乙', '。']] := by
  have h : SegmentText.split_chinese_sentences ['甲', '\n', '乙', '。'] =
      [['甲'], ['乙', '。']] := by
    simp [SegmentText.split_chinese_sentences, SegmentText.processST,
      pyStrip, appendIfNonempty, terminators]
  refine ⟨h, ?_⟩
  rw [h]
  decide

/-- Claim C3 (amended): on a newline run outside quotes the machine flushes
the stripped buffer (when nonempty) as one sentence and seeds the next buffer
with the entire run; but since every flush strips, no emitted sentence is
empty or begins with whitespace, so the newline run never survives as a
prefix of the following sentence (nor is it emitted on its own). -/
theorem c3_newline_run :
    (∀ (prev : Option Char) (buf rest : Str) (acc : List Str),
      SegmentText.processST prev false buf ('\n' :: rest) acc =
        SegmentText.processST (some '\n') false
          ('\n' :: rest.takeWhile (fun d => d = '\n'))
          (rest.dropWhile (fun d => d = '\n'))
          (appendIfNonempty acc (pyStrip buf))) ∧
    (∀ (text : Str), ∀ s ∈ SegmentText.split_chinese_sentences text,
      s ≠ [] ∧ ∀ c, s.head? = some c → ¬c.isWhitespace) := by
  constructor
  · intro prev buf rest acc
    rw [SegmentText.processST.eq_def]
    simp [terminators]
  · intro text s hs
    unfold SegmentText.split_chinese_sentences at hs
    exact processST_output_stripped none false [] text []
      (by intro s hs0; simp at hs0) s (List.mem_filter.mp hs).1

/-- Claim C3 witness: the amended theorem applied to `"甲\n乙。"` and its
second produced sentence `乙。`. -/
theorem c3_newline_run_witness :
    (SegmentText.processST none false ['甲'] ('\n' :: ['乙', '。']) [] =
      SegmentText.processST (some '\n') false
        ('\n' :: ['乙', '。'].takeWhile (fun d => d = '\n'))
        (['乙', '。'].dropWhile (fun d => d = '\n'))
        (appendIfNonempty [] (pyStrip ['甲']))) ∧
    (['乙', '。'] ∈ SegmentText.split_chinese_sentences
        ['甲', '\n', '乙', '。'] ∧
      ['乙', '。'] ≠ [] ∧
      ∀ c, ['乙', '。'].head? = some c → ¬c.isWhitespace) := by
  refine ⟨c3_newline_run.1 none ['甲'] ['乙', '。'] [], ?_, ?_⟩
  · rw [c3_newline_prefix_claim_false.1]
    decide
  · exact c3_newline_run.2 ['甲', '\n', '乙', '。'] ['乙', '。']
      (by rw [c3_newline_prefix_claim_false.1]; decide)

/-- On the spec side, processing a sentence from an empty running segment is
the same as starting the running segment with it (needs `mn ≤ mx`): the peek
rule fires now or at the next step with the same result. -/
theorem specCreateGo_seed (mn mx : Nat) (hmm : mn ≤ mx) :
    ∀ (n : Nat) (rest : List Str), rest.length ≤ n → ∀ s : Str,
      SegmentText.specCreateGo mn mx (s :: rest) [] 0 =
        SegmentText.specCreateGo mn mx rest [s]
          (SegmentText.visible_length s) := by
  intro n
  induction n with
  | zero =>
    intro rest hlen s
    have hnil : rest = [] := List.length_eq_zero.mp (Nat.le_zero.mp hlen)
    subst hnil
    by_cases hsl : SegmentText.visible_length s ≤ mx <;>
      simp [SegmentText.specCreateGo, SegmentText.headOverflow, hsl]
  | succ m ih =>
    intro rest hlen s
    cases rest with
    | nil =>
      by_cases hsl : SegmentText.visible_length s ≤ mx <;>
        simp [SegmentText.specCreateGo, SegmentText.headOverflow, hsl]
    | cons t r2 =>
      have hr2 : r2.length ≤ m := by
        simp only [List.length_cons] at hlen
        omega
      have hseed := ih r2 hr2 t
      by_cases hsl : SegmentText.visible_length s ≤ mx
      · by_cases hpeek : mn ≤ SegmentText.visible_length s ∧
            mx < SegmentText.visible_length s + SegmentText.visible_length t
        · have hlhs : SegmentText.specCreateGo mn mx (s :: t :: r2) [] 0 =
              [s] :: SegmentText.specCreateGo mn mx (t :: r2) [] 0 := by
            conv_lhs => rw [SegmentText.specCreateGo]
            simp [SegmentText.headOverflow, hsl, hpeek.1, hpeek.2]
          have hrhs : SegmentText.specCreateGo mn mx (t :: r2) [s]
              (SegmentText.visible_length s) =
              [s] :: SegmentText.specCreateGo mn mx r2 [t]
                (SegmentText.visible_length t) := by
            conv_lhs => rw [SegmentText.specCreateGo]
            simp [hpeek.1, (by omega : ¬(SegmentText.visible_length s +
              SegmentText.visible_length t ≤ mx))]
            intro hcontra
            exact absurd hcontra (by omega)
          rw [hlhs, hrhs, hseed]
        · have hlhs : SegmentText.specCreateGo mn mx (s :: t :: r2) [] 0 =
              SegmentText.specCreateGo mn mx (t :: r2) [s]
                (SegmentText.visible_length s) := by
            conv_lhs => rw [SegmentText.specCreateGo]
            simp only [Nat.zero_add, List.nil_append]
            rw [if_pos hsl]
            rw [if_neg (by
              simp only [SegmentText.headOverflow, Bool.and_eq_true,
                decide_eq_true_eq]
              intro hcontra
              exact hpeek ⟨hcontra.1, hcontra.2⟩)]
          exact hlhs
      · have hmnsl : mn ≤ SegmentText.visible_length s := by omega
        have hlhs : SegmentText.specCreateGo mn mx (s :: t :: r2) [] 0 =
            [s] :: SegmentText.specCreateGo mn mx (t :: r2) [] 0 := by
          conv_lhs => rw [SegmentText.specCreateGo]
          simp [hsl]
        have hrhs : SegmentText.specCreateGo mn mx (t :: r2) [s]
            (SegmentText.visible_length s) =
            [s] :: SegmentText.specCreateGo mn mx r2 [t]
              (SegmentText.visible_length t) := by
          conv_lhs => rw [SegmentText.specCreateGo]
          simp [hmnsl, (by omega : ¬(SegmentText.visible_length s +
            SegmentText.visible_length t ≤ mx))]
          intro hcontra
          exact absurd hcontra (by omega)
        rw [hlhs, hrhs, hseed]

/-- The Segment Builder code and the spec policy of §4.2 compute the same
segment decomposition from every reachable state, provided `mn ≤ mx`. -/
theorem createGo_eq_specCreateGo (mn mx : Nat) (hmm : mn ≤ mx) :
    ∀ (l cur : List Str) (len : Nat), (cur = [] → len = 0) →
      SegmentText.createGo mn mx l cur len =
        SegmentText.specCreateGo mn mx l cur len := by
  intro l cur len
  induction l, cur, len using SegmentText.createGo.induct mn mx with
  | case1 x =>
    intro _
    rw [SegmentText.createGo.eq_def, SegmentText.specCreateGo.eq_def]
  | case2 cur x hcur =>
    intro _
    rw [SegmentText.createGo.eq_def, SegmentText.specCreateGo.eq_def]
  | case3 s rest len sl ih =>
    intro hcur
    have hlen0 : len = 0 := hcur rfl
    subst hlen0
    have hcode : SegmentText.createGo mn mx (s :: rest) [] 0 =
        SegmentText.createGo mn mx rest [s] (SegmentText.visible_length s) := by
      rw [SegmentText.createGo.eq_def]
      rfl
    rw [hcode, ih (by simp),
      ← specCreateGo_seed mn mx hmm rest.length rest le_rfl s]
  | case4 s rest cur len sl hcur hov hmn ih =>
    intro _
    have hcode : SegmentText.createGo mn mx (s :: rest) cur len =
        cur :: SegmentText.createGo mn mx (s :: rest) [] 0 := by
      rw [SegmentText.createGo.eq_def]
      simp only [if_neg hcur]
      rw [if_pos hov, if_pos hmn]
    have hspec : SegmentText.specCreateGo mn mx (s :: rest) cur len =
        cur :: SegmentText.specCreateGo mn mx rest [s]
          (SegmentText.visible_length s) := by
      conv_lhs => rw [SegmentText.specCreateGo]
      rw [if_neg (by omega : ¬(len + SegmentText.visible_length s ≤ mx))]
      rw [if_pos (by simp [hmn, hcur])]
    rw [hcode, hspec, ih (fun _ => rfl),
      specCreateGo_seed mn mx hmm rest.length rest le_rfl s]
  | case5 s rest cur len sl hcur hov hmn ih =>
    intro _
    have hcode : SegmentText.createGo mn mx (s :: rest) cur len =
        (cur ++ [s]) :: SegmentText.createGo mn mx rest [] 0 := by
      rw [SegmentText.createGo.eq_def]
      simp only [if_neg hcur]
      rw [if_pos hov, if_neg hmn]
    have hspec : SegmentText.specCreateGo mn mx (s :: rest) cur len =
        (cur ++ [s]) :: SegmentText.specCreateGo mn mx rest [] 0 := by
      conv_lhs => rw [SegmentText.specCreateGo]
      rw [if_neg (by omega : ¬(len + SegmentText.visible_length s ≤ mx))]
      rw [if_neg (by simp [hmn])]
    rw [hcode, hspec, ih (fun _ => rfl)]
  | case6 s rest cur len sl hcur hov len' hpeek ih =>
    intro _
    have hcode : SegmentText.createGo mn mx (s :: rest) cur len =
        (cur ++ [s]) :: SegmentText.createGo mn mx rest [] 0 := by
      rw [SegmentText.createGo.eq_def]
      simp only [if_neg hcur]
      rw [if_neg hov, if_pos hpeek]
    have hspec : SegmentText.specCreateGo mn mx (s :: rest) cur len =
        (cur ++ [s]) :: SegmentText.specCreateGo mn mx rest [] 0 := by
      conv_lhs => rw [SegmentText.specCreateGo]
      rw [if_pos (by omega : len + SegmentText.visible_length s ≤ mx)]
      rw [if_pos hpeek]
    rw [hcode, hspec, ih (fun _ => rfl)]
  | case7 s rest cur len sl hcur hov cur' len' hpeek ih =>
    intro _
    have hcode : SegmentText.createGo mn mx (s :: rest) cur len =
        SegmentText.createGo mn mx rest (cur ++ [s])
          (len + SegmentText.visible_length s) := by
      rw [SegmentText.createGo.eq_def]
      simp only [if_neg hcur]
      rw [if_neg hov, if_neg hpeek]
    have hspec : SegmentText.specCreateGo mn mx (s :: rest) cur len =
        SegmentText.specCreateGo mn mx rest (cur ++ [s])
          (len + SegmentText.visible_length s) := by
      conv_lhs => rw [SegmentText.specCreateGo]
      rw [if_pos (by omega : len + SegmentText.visible_length s ≤ mx)]
      rw [if_neg hpeek]
    rw [hcode, hspec, ih (by
      intro hx
      exact absurd (List.append_eq_nil.mp hx).2 (by simp))]

/-- Claim C7: `create_segments` implements exactly the greedy policy of
spec §4.2 whenever `min_chars ≤ max_chars`: appending under the budget,
early close once the segment has reached `min_chars` and the next sentence
would overflow, closing without the sentence when long enough, and appending
anyway (oversized) when still too short. -/
theorem c7_segment_builder_policy (sentences : List Str) (mn mx : Nat)
    (h : mn ≤ mx) :
    SegmentText.create_segments sentences mn mx =
      SegmentText.spec_create_segments sentences mn mx := by
  unfold SegmentText.create_segments SegmentText.spec_create_segments
  rw [createGo_eq_specCreateGo mn mx h sentences [] 0 (fun _ => rfl)]

/-- Claim C7 witness: the equivalence at a concrete sentence list and
bounds 2 ≤ 3. -/
theorem c7_segment_builder_policy_witness :
    2 ≤ 3 ∧
    SegmentText.create_segments [['甲', '乙', '丙'], ['丁'], ['戊', '己']] 2 3 =
      SegmentText.spec_create_segments
        [['甲', '乙', '丙'], ['丁'], ['戊', '己']] 2 3 :=
  ⟨by decide, c7_segment_builder_policy
    [['甲', '乙', '丙'], ['丁'], ['戊', '己']] 2 3 (by decide)⟩

/-- The Segment Builder's accumulated segments flatten back to the pending
segment followed by the remaining sentences: nothing is dropped, duplicated
or reordered. -/
theorem createGo_flatten (mn mx : Nat) : ∀ (l cur : List Str) (len : Nat),
    (SegmentText.createGo mn mx l cur len).flatten = cur ++ l := by
  intro l cur len
  induction l, cur, len using SegmentText.createGo.induct mn mx with
  | case1 x =>
    rw [SegmentText.createGo.eq_def]
    simp
  | case2 cur x hcur =>
    rw [SegmentText.createGo.eq_def]
    simp [hcur]
  | case3 s rest len sl ih =>
    rw [SegmentText.createGo.eq_def]
    simpa using ih
  | case4 s rest cur len sl hcur hov hmn ih =>
    rw [SegmentText.createGo.eq_def]
    simp only [if_neg hcur]
    rw [if_pos hov, if_pos hmn]
    simpa using ih
  | case5 s rest cur len sl hcur hov hmn ih =>
    rw [SegmentText.createGo.eq_def]
    simp only [if_neg hcur]
    rw [if_pos hov, if_neg hmn]
    simpa using ih
  | case6 s rest cur len sl hcur hov len' hpeek ih =>
    rw [SegmentText.createGo.eq_def]
    simp only [if_neg hcur]
    rw [if_neg hov, if_pos hpeek]
    simpa using ih
  | case7 s rest cur len sl hcur hov cur' len' hpeek ih =>
    rw [SegmentText.createGo.eq_def]
    simp only [if_neg hcur]
    rw [if_neg hov, if_neg hpeek]
    have ih2 : (SegmentText.createGo mn mx rest (cur ++ [s])
        (len + SegmentText.visible_length s)).flatten = (cur ++ [s]) ++ rest := ih
    simpa using ih2

/-- Claim C10: `create_segments` always terminates with a partition of its
input: there is a decomposition of the sentence list into consecutive groups
whose joins are exactly the returned segments — every sentence appears whole,
exactly once, in order, for any bounds. -/
theorem c10_create_segments_partition (sentences : List Str) (mn mx : Nat) :
    ∃ parts : List (List Str),
      SegmentText.create_segments sentences mn mx = parts.map joinL ∧
      parts.flatten = sentences :=
  ⟨SegmentText.createGo mn mx sentences [] 0, rfl,
    createGo_flatten mn mx sentences [] 0⟩

/-- Removing whitespace commutes with appending one (possibly skipped)
flushed sentence. -/
theorem filter_joinL_appendIfNonempty (acc : List Str) (x : Str) :
    (joinL (appendIfNonempty acc x)).filter (fun c => !c.isWhitespace) =
      (joinL acc).filter (fun c => !c.isWhitespace) ++
        x.filter (fun c => !c.isWhitespace) := by
  unfold appendIfNonempty
  by_cases hx : x = []
  · subst hx
    simp
  · rw [if_neg hx]
    simp [joinL, List.filter_append]

/-- The flushed text (raw or stripped) has the same non-whitespace
characters as the buffer. -/
theorem filter_flushed (ps : Bool) (buf : Str) :
    ((if ps then buf else pyStrip buf)).filter (fun c => !c.isWhitespace) =
      buf.filter (fun c => !c.isWhitespace) := by
  cases ps with
  | true => rfl
  | false =>
    simp only [if_false, Bool.false_eq_true]
    exact filter_pyStrip buf

/-- Whitespace-removal invariant of the build-sentences machine: the
non-whitespace characters of the final output are exactly those of the
already-emitted sentences, the pending buffer, and the unread input. -/
theorem processBS_filter (ps : Bool) :
    ∀ (prev : Option Char) (inside : Bool) (buf rest : Str) (acc : List Str),
      (joinL (BuildSentences.processBS ps prev inside buf rest acc)).filter
          (fun c => !c.isWhitespace) =
        (joinL acc ++ buf ++ rest).filter (fun c => !c.isWhitespace) := by
  intro prev inside buf rest acc
  induction prev, inside, buf, rest, acc using BuildSentences.processBS.induct ps with
  | case1 prev inside buf acc =>
    rw [BuildSentences.processBS.eq_def]
    rw [filter_joinL_appendIfNonempty, filter_flushed]
    simp [List.filter_append]
  | case2 prev inside buf acc cs ih =>
    rw [BuildSentences.processBS.eq_def]
    simp only [if_pos rfl, if_true]
    rw [ih]
    simp [List.filter_append]
  | case3 prev inside buf acc cs fl hflush h1 bufp ih =>
    rw [BuildSentences.processBS.eq_def]
    simp only [h1, if_true, if_false]
    rw [if_pos hflush]
    rw [ih]
    simp only [List.append_nil, List.filter_append]
    rw [filter_joinL_appendIfNonempty, filter_flushed]
    have hb : bufp = buf ++ ['』'] := rfl
    rw [hb]
    simp [List.filter_append]
  | case4 prev inside buf acc cs fl hflush h1 bufp ih =>
    rw [BuildSentences.processBS.eq_def]
    simp only [h1, if_true, if_false]
    rw [if_neg hflush]
    rw [ih]
    have hb : bufp = buf ++ ['』'] := rfl
    rw [hb]
    simp [List.filter_append]
  | case5 prev inside buf acc cs hlook h1 h2 bufp ih =>
    rw [BuildSentences.processBS.eq_def]
    simp only [h1, h2, if_true, if_false]
    rw [if_pos hlook]
    rw [ih]
    simp only [List.append_nil, List.filter_append]
    rw [filter_joinL_appendIfNonempty, filter_flushed]
    have hb : bufp = buf ++ ['」'] := rfl
    rw [hb]
    simp [List.filter_append]
  | case6 prev inside buf acc cs hlook h1 h2 bufp ih =>
    rw [BuildSentences.processBS.eq_def]
    simp only [h1, h2, if_true, if_false]
    rw [if_neg hlook]
    rw [ih]
    have hb : bufp = buf ++ ['」'] := rfl
    rw [hb]
    simp [List.filter_append]
  | case7 prev inside buf acc c cs h1 h2 h3 hterm bufp ih =>
    rw [BuildSentences.processBS.eq_def]
    simp only [h1, h2, h3, if_true, if_false]
    rw [if_pos hterm]
    rw [ih]
    simp only [List.append_nil, List.filter_append]
    rw [filter_joinL_appendIfNonempty, filter_flushed]
    have hb : bufp = buf ++ [c] := rfl
    rw [hb]
    simp only [List.filter_append, List.append_assoc]
    cases hq : c.isWhitespace <;> simp [List.filter_cons, hq]
  | case8 prev inside buf acc c cs h1 h2 h3 hterm ih =>
    rw [BuildSentences.processBS.eq_def]
    simp only [h1, h2, h3, if_true, if_false]
    rw [if_neg hterm]
    rw [ih]
    simp [List.filter_append]

/-- Claim C5 (counterexample): `split_sentences` is not lossless up to
whitespace: on `甲。。乙` one `。` (a non-whitespace character) is dropped,
so no whitespace-normalizer reconciles the concatenation with the input. -/
theorem c5_lossless_claim_false :
    BuildSentences.split_sentences "甲。。乙".toList =
        ["甲。".toList, "乙".toList] ∧
    (joinL (BuildSentences.split_sentences "甲。。乙".toList)).filter
        (fun c => !c.isWhitespace) ≠
      ("甲。。乙".toList).filter (fun c => !c.isWhitespace) := by
  constructor
  · decide
  · decide

/-- Claim C5 (amended): the quote-aware segmenter `split_chinese_sentences`
is lossless up to whitespace, in both modes: the concatenation of its output
has exactly the input's non-whitespace characters, in order — no
non-whitespace character is dropped, duplicated or reordered.
`split_sentences`, by contrast, can drop `。` characters adjacent to
whitespace-only parts. -/
theorem c5_lossless_chinese (ps : Bool) (text : Str) :
    (joinL (BuildSentences.split_chinese_sentences ps text)).filter
        (fun c => !c.isWhitespace) =
      text.filter (fun c => !c.isWhitespace) := by
  unfold BuildSentences.split_chinese_sentences
  have h := processBS_filter ps none false [] text []
  simpa [joinL] using h

/-- Joining after a conditional append is plain concatenation (an empty
flush contributes nothing either way). -/
theorem joinL_appendIfNonempty (acc : List Str) (x : Str) :
    joinL (appendIfNonempty acc x) = joinL acc ++ x := by
  unfold appendIfNonempty
  by_cases hx : x = []
  · subst hx
    simp [joinL]
  · rw [if_neg hx]
    simp [joinL]

/-- Step equation: quote-open. -/
theorem processBS_step_open (ps : Bool) (prev : Option Char) (inside : Bool)
    (buf cs : Str) (acc : List Str) :
    BuildSentences.processBS ps prev inside buf ('『' :: cs) acc =
      BuildSentences.processBS ps (some '『') true (buf ++ ['『']) cs acc :=
  rfl

/-- Step equation: terminator outside quotes (for a non-quote character). -/
theorem processBS_step_term (ps : Bool) (prev : Option Char) (buf cs : Str)
    (acc : List Str) (c : Char) (h1 : c ≠ '『') (h2 : c ≠ '』') (h3 : c ≠ '」')
    (hc : c ∈ terminators) :
    BuildSentences.processBS ps prev false buf (c :: cs) acc =
      BuildSentences.processBS ps (some c) false [] cs
        (appendIfNonempty acc
          (if ps then buf ++ [c] else pyStrip (buf ++ [c]))) := by
  rw [BuildSentences.processBS.eq_def]
  simp only [h1, h2, h3, if_true, if_false]
  rw [if_pos (by simp [hc])]

/-- Step equation: ordinary character (no quote, no terminator effect). -/
theorem processBS_step_other (ps : Bool) (prev : Option Char) (inside : Bool)
    (buf cs : Str) (acc : List Str) (c : Char) (h1 : c ≠ '『') (h2 : c ≠ '』')
    (h3 : c ≠ '」')
    (hterm : (decide (c ∈ terminators) && !inside) = false) :
    BuildSentences.processBS ps prev inside buf (c :: cs) acc =
      BuildSentences.processBS ps (some c) inside (buf ++ [c]) cs acc := by
  rw [BuildSentences.processBS.eq_def]
  simp only [h1, h2, h3, if_true, if_false]
  rw [if_neg (by simp [hterm])]

/-- The build-sentences machine only appends to its accumulator. -/
theorem processBS_acc (ps : Bool) :
    ∀ (prev : Option Char) (inside : Bool) (buf rest : Str) (acc : List Str)
      (a : List Str),
      BuildSentences.processBS ps prev inside buf rest a =
        a ++ BuildSentences.processBS ps prev inside buf rest [] := by
  intro prev inside buf rest acc
  induction prev, inside, buf, rest, acc using BuildSentences.processBS.induct ps with
  | case1 prev inside buf acc =>
    intro a
    show appendIfNonempty a (if ps then buf else pyStrip buf) =
      a ++ appendIfNonempty [] (if ps then buf else pyStrip buf)
    unfold appendIfNonempty
    split <;> split <;> simp_all
  | case2 prev inside buf acc cs ih =>
    intro a
    rw [BuildSentences.processBS.eq_def]
    conv_rhs => rw [BuildSentences.processBS.eq_def]
    simp only [if_pos rfl, if_true]
    rw [ih]
  | case3 prev inside buf acc cs fl hflush h1 bufp ih =>
    intro a
    rw [BuildSentences.processBS.eq_def]
    conv_rhs => rw [BuildSentences.processBS.eq_def]
    simp only [h1, if_true, if_false]
    rw [if_pos hflush, if_pos hflush]
    rw [ih, ih (appendIfNonempty [] _)]
    clear ih
    unfold appendIfNonempty
    split <;> split <;> simp_all
  | case4 prev inside buf acc cs fl hflush h1 bufp ih =>
    intro a
    rw [BuildSentences.processBS.eq_def]
    conv_rhs => rw [BuildSentences.processBS.eq_def]
    simp only [h1, if_true, if_false]
    rw [if_neg hflush, if_neg hflush]
    rw [ih]
  | case5 prev inside buf acc cs hlook h1 h2 bufp ih =>
    intro a
    rw [BuildSentences.processBS.eq_def]
    conv_rhs => rw [BuildSentences.processBS.eq_def]
    simp only [h1, h2, if_true, if_false]
    rw [if_pos hlook, if_pos hlook]
    rw [ih, ih (appendIfNonempty [] _)]
    clear ih
    unfold appendIfNonempty
    split <;> split <;> simp_all
  | case6 prev inside buf acc cs hlook h1 h2 bufp ih =>
    intro a
    rw [BuildSentences.processBS.eq_def]
    conv_rhs => rw [BuildSentences.processBS.eq_def]
    simp only [h1, h2, if_true, if_false]
    rw [if_neg hlook, if_neg hlook]
    rw [ih]
  | case7 prev inside buf acc c cs h1 h2 h3 hterm bufp ih =>
    intro a
    rw [BuildSentences.processBS.eq_def]
    conv_rhs => rw [BuildSentences.processBS.eq_def]
    simp only [h1, h2, h3, if_true, if_false]
    rw [if_pos hterm, if_pos hterm]
    rw [ih, ih (appendIfNonempty [] _)]
    clear ih
    unfold appendIfNonempty
    split <;> split <;> simp_all
  | case8 prev inside buf acc c cs h1 h2 h3 hterm ih =>
    intro a
    rw [BuildSentences.processBS.eq_def]
    conv_rhs => rw [BuildSentences.processBS.eq_def]
    simp only [h1, h2, h3, if_true, if_false]
    rw [if_neg hterm, if_neg hterm]
    rw [ih]

/-- In preserve-spaces mode the machine is exactly lossless. -/
theorem processBS_join_true :
    ∀ (prev : Option Char) (inside : Bool) (buf rest : Str) (acc : List Str)
      (a : List Str),
      joinL (BuildSentences.processBS true prev inside buf rest a) =
        joinL a ++ buf ++ rest := by
  intro prev inside buf rest acc
  induction prev, inside, buf, rest, acc using BuildSentences.processBS.induct true with
  | case1 prev inside buf acc =>
    intro a
    show joinL (appendIfNonempty a (if true then buf else pyStrip buf)) = _
    rw [joinL_appendIfNonempty]
    simp
  | case2 prev inside buf acc cs ih =>
    intro a
    rw [BuildSentences.processBS.eq_def]
    simp only [if_pos rfl, if_true]
    rw [ih]
    simp
  | case3 prev inside buf acc cs fl hflush h1 bufp ih =>
    intro a
    rw [BuildSentences.processBS.eq_def]
    simp only [h1, if_true, if_false]
    rw [if_pos hflush]
    rw [ih, joinL_appendIfNonempty]
    simp
  | case4 prev inside buf acc cs fl hflush h1 bufp ih =>
    intro a
    rw [BuildSentences.processBS.eq_def]
    simp only [h1, if_true, if_false]
    rw [if_neg hflush]
    rw [ih]
    simp only [show bufp = buf ++ ['』'] from rfl]
    simp
  | case5 prev inside buf acc cs hlook h1 h2 bufp ih =>
    intro a
    rw [BuildSentences.processBS.eq_def]
    simp only [h1, h2, if_true, if_false]
    rw [if_pos hlook]
    rw [ih, joinL_appendIfNonempty]
    simp
  | case6 prev inside buf acc cs hlook h1 h2 bufp ih =>
    intro a
    rw [BuildSentences.processBS.eq_def]
    simp only [h1, h2, if_true, if_false]
    rw [if_neg hlook]
    rw [ih]
    simp only [show bufp = buf ++ ['」'] from rfl]
    simp
  | case7 prev inside buf acc c cs h1 h2 h3 hterm bufp ih =>
    intro a
    rw [BuildSentences.processBS.eq_def]
    simp only [h1, h2, h3, if_true, if_false]
    rw [if_pos hterm]
    rw [ih, joinL_appendIfNonempty]
    simp
  | case8 prev inside buf acc c cs h1 h2 h3 hterm ih =>
    intro a
    rw [BuildSentences.processBS.eq_def]
    simp only [h1, h2, h3, if_true, if_false]
    rw [if_neg hterm]
    rw [ih]
    simp

/-- Preserve-spaces segmentation is exactly lossless. -/
theorem split_chinese_sentences_join_true (text : Str) :
    joinL (BuildSentences.split_chinese_sentences true text) = text := by
  unfold BuildSentences.split_chinese_sentences
  rw [processBS_join_true none false [] text [] []]
  simp [joinL]

/-- Stripping only removes characters. -/
theorem pyStrip_subset {l : Str} : ∀ c ∈ pyStrip l, c ∈ l := by
  intro c hc
  unfold pyStrip at hc
  have h1 :=
    ((l.reverse.dropWhile Char.isWhitespace).reverse.dropWhile_sublist
      Char.isWhitespace).subset hc
  rw [List.mem_reverse] at h1
  have h2 := (l.reverse.dropWhile_sublist Char.isWhitespace).subset h1
  rw [List.mem_reverse] at h2
  exact h2

/-- Stripping a string that ends in a non-whitespace character only drops
the leading whitespace. -/
theorem pyStrip_append_last {l : Str} {c : Char} (hc : ¬c.isWhitespace) :
    pyStrip (l ++ [c]) = l.dropWhile Char.isWhitespace ++ [c] := by
  unfold pyStrip
  rw [List.reverse_append]
  simp only [List.reverse_cons, List.reverse_nil, List.nil_append,
    List.singleton_append]
  rw [List.dropWhile_cons_of_neg (by simpa using hc)]
  rw [List.reverse_cons, List.reverse_reverse]
  rw [List.dropWhile_append]
  by_cases he : (l.dropWhile Char.isWhitespace).isEmpty
  · rw [if_pos he]
    rw [List.dropWhile_cons_of_neg (by simpa using hc)]
    rw [List.isEmpty_iff] at he
    rw [he]
    rfl
  · rw [if_neg he]

/-- A concatenation of quote-free strings is quote-free. -/
theorem noQuoteDelims_joinL {ss : List Str} (h : ∀ s ∈ ss, noQuoteDelims s) :
    noQuoteDelims (joinL ss) := by
  intro c hc
  unfold joinL at hc
  rw [List.mem_flatten] at hc
  obtain ⟨s, hs, hcs⟩ := hc
  exact h s hs c hcs

/-- On quote-free remaining input the previous-character register is
irrelevant (it is consulted only at a closing quote). -/
theorem processBS_prev_irrel (ps : Bool) {rest : Str} (hr : noQuoteDelims rest) :
    ∀ (prev prev2 : Option Char) (buf : Str) (acc : List Str),
      BuildSentences.processBS ps prev false buf rest acc =
        BuildSentences.processBS ps prev2 false buf rest acc := by
  cases rest with
  | nil => intro _ _ _ _; rfl
  | cons c cs =>
    intro prev prev2 buf acc
    obtain ⟨h1, h2, h3⟩ := hr c (by simp)
    rw [BuildSentences.processBS.eq_def]
    conv_rhs => rw [BuildSentences.processBS.eq_def]
    simp only [h1, h2, h3, if_true, if_false]

/-- A quote-free, terminator-free block of characters is absorbed into the
buffer without any flush. -/
theorem processBS_skip_body (ps : Bool) :
    ∀ (body : Str), noQuoteDelims body → termFree body →
      ∀ (prev : Option Char) (buf t : Str) (acc : List Str), noQuoteDelims t →
        BuildSentences.processBS ps prev false buf (body ++ t) acc =
          BuildSentences.processBS ps prev false (buf ++ body) t acc := by
  intro body
  induction body with
  | nil =>
    intro _ _ prev buf t acc _
    simp
  | cons c body2 ih =>
    intro hq htf prev buf t acc ht
    obtain ⟨h1, h2, h3⟩ := hq c (by simp)
    have hterm : c ∉ terminators := htf c (by simp)
    rw [List.cons_append]
    rw [processBS_step_other ps prev false buf (body2 ++ t) acc c h1 h2 h3
      (by simp [hterm])]
    rw [ih (fun d hd => hq d (by simp [hd])) (fun d hd => htf d (by simp [hd]))
      (some c) (buf ++ [c]) t acc ht]
    have hb : buf ++ c :: body2 = (buf ++ [c]) ++ body2 := by simp
    rw [hb]
    exact processBS_prev_irrel ps ht (some c) prev ((buf ++ [c]) ++ body2) acc

/-- Consuming one terminator-closed sentence from quote-free input emits
exactly that sentence. -/
theorem processBS_consume_closed (s : Str) (hs : sentOK s) (he : endsTerm s) :
    ∀ (prev : Option Char) (t : Str), noQuoteDelims t → ∀ (acc : List Str),
      BuildSentences.processBS false prev false [] (s ++ t) acc =
        BuildSentences.processBS false prev false [] t (acc ++ [s]) := by
  intro prev t ht acc
  obtain ⟨hne, hstrip, hq, htf⟩ := hs
  obtain ⟨c, hlast, hcterm⟩ := he
  have hne2 : s ≠ [] := hne
  have hlast2 : s.getLast hne2 = c := by
    rw [List.getLast?_eq_getLast s hne2] at hlast
    exact Option.some.inj hlast
  have hsplit : s = s.dropLast ++ [c] := by
    rw [← hlast2]
    exact (List.dropLast_append_getLast hne2).symm
  have hcs : c ∈ s := by
    rw [hsplit]
    simp
  obtain ⟨h1, h2, h3⟩ := hq c hcs
  have hstep : s ++ t = s.dropLast ++ (c :: t) := by
    conv_lhs => rw [hsplit]
    simp
  rw [hstep]
  rw [processBS_skip_body false s.dropLast
    (fun d hd => hq d ((List.dropLast_sublist s).subset hd))
    (fun d hd => htf d hd) prev [] (c :: t) acc
    (by
      intro d hd
      rcases List.mem_cons.mp hd with h | h
      · subst h
        exact ⟨h1, h2, h3⟩
      · exact ht d h)]
  rw [List.nil_append]
  rw [processBS_step_term false prev s.dropLast t acc c h1 h2 h3 hcterm]
  have hred : (if (false : Bool) then s.dropLast ++ [c]
      else pyStrip (s.dropLast ++ [c])) = pyStrip (s.dropLast ++ [c]) := rfl
  rw [hred, ← hsplit, hstrip]
  have happ : appendIfNonempty acc s = acc ++ [s] := by
    unfold appendIfNonempty
    rw [if_neg hne]
  rw [happ]
  exact processBS_prev_irrel false ht (some c) prev [] (acc ++ [s])

/-- Feeding one wellformed sentence alone to the stripping machine returns
it unchanged. -/
theorem processBS_consume_last (s : Str) (hs : sentOK s) :
    ∀ (prev : Option Char) (acc : List Str),
      BuildSentences.processBS false prev false [] s acc = acc ++ [s] := by
  intro prev acc
  obtain ⟨hne, hstrip, hq, htf⟩ := hs
  by_cases he : endsTerm s
  · have h1 := processBS_consume_closed s ⟨hne, hstrip, hq, htf⟩ he prev []
      (by intro d hd; simp at hd) acc
    rw [List.append_nil] at h1
    rw [h1]
    rfl
  · have hne2 : s ≠ [] := hne
    have hsplit : s = s.dropLast ++ [s.getLast hne2] :=
      (List.dropLast_append_getLast hne2).symm
    have htf2 : termFree s := by
      intro d hd hdt
      rw [hsplit] at hd
      rcases List.mem_append.mp hd with h | h
      · exact htf d h hdt
      · rw [List.mem_singleton] at h
        subst h
        exact he ⟨s.getLast hne2, List.getLast?_eq_getLast s hne2, hdt⟩
    have h2 := processBS_skip_body false s hq htf2 prev [] [] acc
      (by intro d hd; simp at hd)
    rw [List.append_nil] at h2
    rw [h2]
    rw [List.nil_append]
    show appendIfNonempty acc (pyStrip s) = acc ++ [s]
    rw [hstrip]
    unfold appendIfNonempty
    rw [if_neg hne]

/-- Replaying a list of wellformed sentences, all but possibly the last
closed by a terminator, reproduces exactly that list. -/
theorem processBS_replay :
    ∀ (ss : List Str), (∀ s ∈ ss, sentOK s) →
      (∀ s ∈ ss.dropLast, endsTerm s) →
      ∀ (prev : Option Char) (acc : List Str),
        BuildSentences.processBS false prev false [] (joinL ss) acc =
          acc ++ ss := by
  intro ss
  induction ss with
  | nil =>
    intro _ _ prev acc
    show appendIfNonempty acc (pyStrip []) = acc ++ []
    simp [appendIfNonempty, pyStrip]
  | cons s rest ih =>
    intro hok hdl prev acc
    cases rest with
    | nil =>
      have hj : joinL [s] = s := by simp [joinL]
      rw [hj]
      exact processBS_consume_last s (hok s (by simp)) prev acc
    | cons s2 rest2 =>
      have hj : joinL (s :: s2 :: rest2) = s ++ joinL (s2 :: rest2) := by
        simp [joinL]
      rw [hj]
      have hq2 : noQuoteDelims (joinL (s2 :: rest2)) :=
        noQuoteDelims_joinL (fun x hx => (hok x (by simp [hx])).2.2.1)
      have hse : endsTerm s := hdl s (by
        rw [show (s :: s2 :: rest2).dropLast = s :: (s2 :: rest2).dropLast
          from rfl]
        simp)
      rw [processBS_consume_closed s (hok s (by simp)) hse prev
        (joinL (s2 :: rest2)) hq2 acc]
      rw [ih (fun x hx => hok x (by simp [hx]))
        (fun x hx => hdl x (by
          rw [show (s :: s2 :: rest2).dropLast = s :: (s2 :: rest2).dropLast
            from rfl]
          exact List.mem_cons_of_mem s hx)) prev (acc ++ [s])]
      simp

/-- On quote-free input the stripping machine emits only wellformed
sentences, every one but possibly the last closed by a terminator. -/
theorem processBS_output_shape :
    ∀ (rest : Str), noQuoteDelims rest →
      ∀ (prev : Option Char) (buf : Str), termFree buf → noQuoteDelims buf →
        ∀ (acc : List Str), (∀ s ∈ acc, sentOK s ∧ endsTerm s) →
          (∀ s ∈ BuildSentences.processBS false prev false buf rest acc,
              sentOK s) ∧
          (∀ s ∈ (BuildSentences.processBS false prev false buf
              rest acc).dropLast, endsTerm s) := by
  intro rest
  induction rest with
  | nil =>
    intro _ prev buf htf hq acc hacc
    have hred : BuildSentences.processBS false prev false buf [] acc =
        appendIfNonempty acc (pyStrip buf) := rfl
    rw [hred]
    unfold appendIfNonempty
    by_cases hb : pyStrip buf = []
    · rw [if_pos hb]
      exact ⟨fun s hs => (hacc s hs).1,
        fun s hs => (hacc s ((List.dropLast_sublist acc).subset hs)).2⟩
    · rw [if_neg hb]
      constructor
      · intro s hs
        rcases List.mem_append.mp hs with h | h
        · exact (hacc s h).1
        · rw [List.mem_singleton] at h
          subst h
          refine ⟨hb, pyStrip_idem buf, ?_, ?_⟩
          · intro d hd
            exact hq d (pyStrip_subset d hd)
          · intro d hd heq
            exact htf d (pyStrip_subset d ((List.dropLast_sublist _).subset hd))
              heq
      · intro s hs
        have hdl : (acc ++ [pyStrip buf]).dropLast = acc := by simp
        rw [hdl] at hs
        exact (hacc s hs).2
  | cons c cs ih =>
    intro hrest prev buf htf hq acc hacc
    obtain ⟨h1, h2, h3⟩ := hrest c (by simp)
    have hrest2 : noQuoteDelims cs := fun d hd => hrest d (by simp [hd])
    by_cases hct : c ∈ terminators
    · rw [processBS_step_term false prev buf cs acc c h1 h2 h3 hct]
      have hred : (if (false : Bool) then buf ++ [c]
          else pyStrip (buf ++ [c])) = pyStrip (buf ++ [c]) := rfl
      rw [hred]
      have hcws : ¬c.isWhitespace := by
        have hm := hct
        simp [terminators] at hm
        rcases hm with h | h | h <;> subst h <;> decide
      have hps : pyStrip (buf ++ [c]) =
          buf.dropWhile Char.isWhitespace ++ [c] := pyStrip_append_last hcws
      have hnn : pyStrip (buf ++ [c]) ≠ [] := by
        rw [hps]
        simp
      have hone : sentOK (pyStrip (buf ++ [c])) ∧
          endsTerm (pyStrip (buf ++ [c])) := by
        constructor
        · refine ⟨hnn, pyStrip_idem _, ?_, ?_⟩
          · intro d hd
            rcases List.mem_append.mp (pyStrip_subset d hd) with h | h
            · exact hq d h
            · rw [List.mem_singleton] at h
              subst h
              exact ⟨h1, h2, h3⟩
          · intro d hd heq
            rw [hps] at hd
            have hdl : (buf.dropWhile Char.isWhitespace ++ [c]).dropLast =
                buf.dropWhile Char.isWhitespace := by simp
            rw [hdl] at hd
            exact htf d ((buf.dropWhile_sublist Char.isWhitespace).subset hd)
              heq
        · refine ⟨c, ?_, hct⟩
          rw [hps]
          simp
      have hacc2 : ∀ s ∈ appendIfNonempty acc (pyStrip (buf ++ [c])),
          sentOK s ∧ endsTerm s := by
        intro s hs
        unfold appendIfNonempty at hs
        rw [if_neg hnn] at hs
        rcases List.mem_append.mp hs with h | h
        · exact hacc s h
        · rw [List.mem_singleton] at h
          subst h
          exact hone
      exact ih hrest2 (some c) [] (by intro d hd; simp at hd)
        (by intro d hd; simp at hd) _ hacc2
    · rw [processBS_step_other false prev false buf cs acc c h1 h2 h3
        (by simp [hct])]
      refine ih hrest2 (some c) (buf ++ [c]) ?_ ?_ acc hacc
      · intro d hd heq
        rcases List.mem_append.mp hd with h | h
        · exact htf d h heq
        · rw [List.mem_singleton] at h
          subst h
          exact hct heq
      · intro d hd
        rcases List.mem_append.mp hd with h | h
        · exact hq d h
        · rw [List.mem_singleton] at h
          subst h
          exact ⟨h1, h2, h3⟩

/-- Quote-free idempotence of the stripping segmenter: re-running it on
the concatenation of its own output changes nothing. -/
theorem split_false_idem {text : Str} (h : noQuoteDelims text) :
    BuildSentences.split_chinese_sentences false
        (joinL (BuildSentences.split_chinese_sentences false text)) =
      BuildSentences.split_chinese_sentences false text := by
  have hshape := processBS_output_shape text h none []
    (by intro d hd; simp at hd) (by intro d hd; simp at hd) []
    (by intro s hs; simp at hs)
  unfold BuildSentences.split_chinese_sentences
  have hrep := processBS_replay
    (BuildSentences.processBS false none false [] text [])
    hshape.1 hshape.2 none []
  exact hrep.trans (List.nil_append _)

/-- Claim C4 (counterexample): the default (stripping) segmenter is not
idempotent.  On `"甲。 』乙"` the first pass yields `["甲。", "』乙"]`
(the space before the stray `』` keeps the close-quote flush from firing),
but re-segmenting the concatenation `"甲。』乙"` fires the close-quote
flush (previous character `。`, next character not a terminator) and
yields `["甲。", "』", "乙"]`. -/
theorem c4_idempotence_claim_false :
    BuildSentences.split_chinese_sentences false
        (joinL (BuildSentences.split_chinese_sentences false
          ['甲', '。', ' ', '』', '乙'])) ≠
      BuildSentences.split_chinese_sentences false
        ['甲', '。', ' ', '』', '乙'] := by
  decide

/-- Claim C4 (amended): idempotence holds in preserve-spaces mode for every
input (re-running the segmenter on the concatenation of its output
reproduces the output), and in default (stripping) mode for every input
free of the quotation delimiters `『』」`; stripping-mode idempotence can
fail when whitespace adjacent to a quote delimiter is removed by the first
pass, changing the close-quote flush decision on the second pass. -/
theorem c4_idempotence :
    (∀ text : Str,
        BuildSentences.split_chinese_sentences true
            (joinL (BuildSentences.split_chinese_sentences true text)) =
          BuildSentences.split_chinese_sentences true text) ∧
    (∀ text : Str, noQuoteDelims text →
        BuildSentences.split_chinese_sentences false
            (joinL (BuildSentences.split_chinese_sentences false text)) =
          BuildSentences.split_chinese_sentences false text) := by
  constructor
  · intro text
    rw [split_chinese_sentences_join_true text]
  · intro text h
    exact split_false_idem h

/-- Claim C4 witness: the amended theorem applied to the quote-free text
`"甲。 乙"`. -/
theorem c4_idempotence_witness :
    noQuoteDelims ['甲', '。', ' ', '乙'] ∧
      BuildSentences.split_chinese_sentences false
          (joinL (BuildSentences.split_chinese_sentences false
            ['甲', '。', ' ', '乙'])) =
        BuildSentences.split_chinese_sentences false ['甲', '。', ' ', '乙'] :=
  ⟨by unfold noQuoteDelims; decide,
    c4_idempotence.2 ['甲', '。', ' ', '乙'] (by unfold noQuoteDelims; decide)⟩
